import Mathlib

/-!
Verification of the go-lager line-composition engine (buf.go, lager.go,
data.go) against its natural-language specification.  Strings and byte
slices are modelled as `List Nat` with every element below 256; machine
integers are modelled as `Nat`/`Int`.  Each definition is a direct
translation of the corresponding Go function; deferred-write
optimizations in the Go code (batching unescaped bytes between `beg`
and `i` before a single `write` call) are rendered as per-byte output,
which produces byte-for-byte identical output.
-/

namespace Lager

/-! ## UTF-8 decoding (model of Go unicode/utf8)

`escape` calls `utf8.DecodeRuneInString` and `escapeBytes` calls
`utf8.DecodeRune`; in the Go standard library these are two textually
duplicated functions, so they are modelled as two separate definitions
below.  `utf8first` models the package-level `first` lookup table:
0x00-0x7F ↦ as (0xF0), 0x80-0xC1 ↦ xx (0xF1), 0xC2-0xDF ↦ s1 (0x02),
0xE0 ↦ s2 (0x13), 0xE1-0xEC ↦ s3 (0x03), 0xED ↦ s4 (0x23),
0xEE-0xEF ↦ s3 (0x03), 0xF0 ↦ s5 (0x34), 0xF1-0xF3 ↦ s6 (0x04),
0xF4 ↦ s7 (0x44), 0xF5-0xFF ↦ xx (0xF1). -/
def utf8first (b : Nat) : Nat :=
  if b < 0x80 then 0xF0
  else if b < 0xC2 then 0xF1
  else if b < 0xE0 then 0x02
  else if b = 0xE0 then 0x13
  else if b < 0xED then 0x03
  else if b = 0xED then 0x23
  else if b < 0xF0 then 0x03
  else if b = 0xF0 then 0x34
  else if b < 0xF4 then 0x04
  else if b = 0xF4 then 0x44
  else 0xF1

/-- Lower bound of Go's `acceptRanges[i]` for the second byte. -/
def acceptLo (i : Nat) : Nat :=
  if i = 1 then 0xA0 else if i = 3 then 0x90 else 0x80

/-- Upper bound of Go's `acceptRanges[i]` for the second byte. -/
def acceptHi (i : Nat) : Nat :=
  if i = 2 then 0x9F else if i = 4 then 0x8F else 0xBF

/-- Go's `utf8.RuneError` (the Unicode replacement character U+FFFD). -/
def runeError : Nat := 0xFFFD

/-- Model of Go `utf8.DecodeRuneInString`: returns (rune, size).
Returns `(RuneError, 0)` on empty input, `(RuneError, 1)` on an invalid
encoding (invalid first byte, truncated sequence, continuation byte out
of its accept range, overlong form, or surrogate).  The Go code checks
`n < sz` before validating `p[1]`; both orders return `(RuneError, 1)`
in every disagreement-free case, so the result is identical. -/
def decodeRuneInString (p : List Nat) : Nat × Nat :=
  match p with
  | [] => (runeError, 0)
  | p0 :: rest =>
    let x := utf8first p0
    if 0xF0 ≤ x then
      -- ASCII (as) decodes to itself with size 1; xx is an error.
      if x = 0xF0 then (p0, 1) else (runeError, 1)
    else
      let sz := x % 8
      let lo := acceptLo (x / 16)
      let hi := acceptHi (x / 16)
      match rest with
      | [] => (runeError, 1)
      | b1 :: rest2 =>
        if b1 < lo ∨ hi < b1 then (runeError, 1)
        else if sz = 2 then (p0 % 0x20 * 0x40 + b1 % 0x40, 2)
        else match rest2 with
        | [] => (runeError, 1)
        | b2 :: rest3 =>
          if b2 < 0x80 ∨ 0xBF < b2 then (runeError, 1)
          else if sz = 3 then
            (p0 % 0x10 * 0x1000 + b1 % 0x40 * 0x40 + b2 % 0x40, 3)
          else match rest3 with
          | [] => (runeError, 1)
          | b3 :: _ =>
            if b3 < 0x80 ∨ 0xBF < b3 then (runeError, 1)
            else
              (p0 % 8 * 0x40000 + b1 % 0x40 * 0x1000 +
                b2 % 0x40 * 0x40 + b3 % 0x40, 4)

/-- Model of Go `utf8.DecodeRune` (the byte-slice twin of
`utf8.DecodeRuneInString`, textually duplicated in the Go library). -/
def decodeRune (p : List Nat) : Nat × Nat :=
  match p with
  | [] => (runeError, 0)
  | p0 :: rest =>
    let x := utf8first p0
    if 0xF0 ≤ x then
      if x = 0xF0 then (p0, 1) else (runeError, 1)
    else
      let sz := x % 8
      let lo := acceptLo (x / 16)
      let hi := acceptHi (x / 16)
      match rest with
      | [] => (runeError, 1)
      | b1 :: rest2 =>
        if b1 < lo ∨ hi < b1 then (runeError, 1)
        else if sz = 2 then (p0 % 0x20 * 0x40 + b1 % 0x40, 2)
        else match rest2 with
        | [] => (runeError, 1)
        | b2 :: rest3 =>
          if b2 < 0x80 ∨ 0xBF < b2 then (runeError, 1)
          else if sz = 3 then
            (p0 % 0x10 * 0x1000 + b1 % 0x40 * 0x40 + b2 % 0x40, 3)
          else match rest3 with
          | [] => (runeError, 1)
          | b3 :: _ =>
            if b3 < 0x80 ∨ 0xBF < b3 then (runeError, 1)
            else
              (p0 % 8 * 0x40000 + b1 % 0x40 * 0x1000 +
                b2 % 0x40 * 0x40 + b3 % 0x40, 4)

/-- The invalidity test used by `escape`/`escapeBytes`/`nonUtf8Chars`:
`r == utf8.RuneError && 1 == rl || 0x110000 <= r`. -/
def badRune (r rl : Nat) : Bool :=
  (r == runeError && rl == 1) || 0x110000 ≤ r

/-- Model of Go `utf16.EncodeRune`: surrogate pair for a valid rune
above 0xFFFF, else `(RuneError, RuneError)`. -/
def utf16EncodeRune (r : Nat) : Nat × Nat :=
  if r < 0x10000 ∨ 0x10FFFF < r then (runeError, runeError)
  else ((r - 0x10000) / 0x400 + 0xD800, (r - 0x10000) % 0x400 + 0xDC00)

/-! ## buf.go: string escaping -/

/-- `hexDigits = "0123456789ABCDEF"` indexed at `n`. -/
def hexDigitU (n : Nat) : Nat :=
  if n < 10 then 0x30 + n else 0x41 + (n - 10)

/-- `noEsc`: true for printable ASCII 0x20..0x7E except `"` and `\`. -/
def noEsc (c : Nat) : Bool :=
  (0x20 ≤ c && c < 0x7F) && !(c == 0x22) && !(c == 0x5C)

/-- `(*buffer).escape1Rune`: short backslash escape where one exists,
else `\uXXXX` with the four uppercase hex nibbles of the rune. -/
def escape1Rune (r : Nat) : List Nat :=
  if r = 0x22 then [0x5C, 0x22]
  else if r = 0x5C then [0x5C, 0x5C]
  else if r = 0x08 then [0x5C, 0x62]
  else if r = 0x0C then [0x5C, 0x66]
  else if r = 0x0A then [0x5C, 0x6E]
  else if r = 0x0D then [0x5C, 0x72]
  else if r = 0x09 then [0x5C, 0x74]
  else [0x5C, 0x75, hexDigitU (r / 0x1000 % 16), hexDigitU (r / 0x100 % 16),
    hexDigitU (r / 0x10 % 16), hexDigitU (r % 16)]

/-- `(*buffer).writeByteHex`: two uppercase hex digits of one byte. -/
def writeByteHex (c : Nat) : List Nat :=
  [hexDigitU (c / 16), hexDigitU (c % 16)]

/-- The loop body of `(*buffer).nonUtf8Chars`: hex digits of each byte
of the invalid run and the number of bytes consumed.  The first byte is
consumed unconditionally; after that the loop stops at the end of the
input or at the first position where `utf8.DecodeRuneInString` yields a
valid rune. -/
def nonUtf8Body (s : List Nat) : List Nat × Nat :=
  match s with
  | [] => ([], 0)
  | c :: rest =>
    let d := writeByteHex c
    if rest = [] then (d, 1)
    else
      let rr := decodeRuneInString rest
      if badRune rr.1 rr.2 then
        let dn := nonUtf8Body rest
        (d ++ dn.1, 1 + dn.2)
      else (d, 1)

/-- `(*buffer).nonUtf8Chars`: emits `«x`, two hex digits per consumed
byte, `»`; returns (output bytes, consumed count).  `«` is the UTF-8
byte pair C2 AB and `»` is C2 BB, exactly the bytes of the Go string
literals written by `b.write`. -/
def nonUtf8Chars (s : List Nat) : List Nat × Nat :=
  let dn := nonUtf8Body s
  ([0xC2, 0xAB, 0x78] ++ dn.1 ++ [0xC2, 0xBB], dn.2)

/-- Loop body of `(*buffer).nonUtf8Bytes` (the byte-slice twin, using
`utf8.DecodeRune`). -/
def nonUtf8BytesBody (s : List Nat) : List Nat × Nat :=
  match s with
  | [] => ([], 0)
  | c :: rest =>
    let d := writeByteHex c
    if rest = [] then (d, 1)
    else
      let rr := decodeRune rest
      if badRune rr.1 rr.2 then
        let dn := nonUtf8BytesBody rest
        (d ++ dn.1, 1 + dn.2)
      else (d, 1)

/-- `(*buffer).nonUtf8Bytes`. -/
def nonUtf8Bytes (s : List Nat) : List Nat × Nat :=
  let dn := nonUtf8BytesBody s
  ([0xC2, 0xAB, 0x78] ++ dn.1 ++ [0xC2, 0xBB], dn.2)

theorem nonUtf8Body_pos (c : Nat) (rest : List Nat) :
    1 ≤ (nonUtf8Body (c :: rest)).2 := by
  unfold nonUtf8Body
  dsimp only
  split
  · exact Nat.le_refl 1
  · split
    · exact Nat.le_add_right 1 _
    · exact Nat.le_refl 1

theorem nonUtf8BytesBody_pos (c : Nat) (rest : List Nat) :
    1 ≤ (nonUtf8BytesBody (c :: rest)).2 := by
  unfold nonUtf8BytesBody
  dsimp only
  split
  · exact Nat.le_refl 1
  · split
    · exact Nat.le_add_right 1 _
    · exact Nat.le_refl 1

theorem nonUtf8Body_le (s : List Nat) : (nonUtf8Body s).2 ≤ s.length := by
  induction s with
  | nil => simp [nonUtf8Body]
  | cons c rest ih =>
    unfold nonUtf8Body
    dsimp only
    split
    · simp
    · split
      · simp only [List.length_cons]
        omega
      · simp

theorem decodeRuneInString_pos (c : Nat) (rest : List Nat) :
    1 ≤ (decodeRuneInString (c :: rest)).2 := by
  unfold decodeRuneInString
  dsimp only
  split <;> [skip; cases rest with
    | nil => simp
    | cons b1 rest2 => ?_]
  · split <;> simp
  · dsimp only
    split
    · simp
    · split
      · simp
      · cases rest2 with
        | nil => simp
        | cons b2 rest3 =>
          dsimp only
          split
          · simp
          · split
            · simp
            · cases rest3 with
              | nil => simp
              | cons b3 rest4 =>
                dsimp only
                split <;> simp

theorem decodeRune_pos (c : Nat) (rest : List Nat) :
    1 ≤ (decodeRune (c :: rest)).2 := by
  unfold decodeRune
  dsimp only
  split <;> [skip; cases rest with
    | nil => simp
    | cons b1 rest2 => ?_]
  · split <;> simp
  · dsimp only
    split
    · simp
    · split
      · simp
      · cases rest2 with
        | nil => simp
        | cons b2 rest3 =>
          dsimp only
          split
          · simp
          · split
            · simp
            · cases rest3 with
              | nil => simp
              | cons b3 rest4 =>
                dsimp only
                split <;> simp

/-- `(*buffer).escape`.  The Go loop batches runs of `noEsc` bytes via
`beg` and writes them with one `b.write(s[beg:i])`; emitting each such
byte directly yields the identical byte sequence. -/
def escape (s : List Nat) : List Nat :=
  match s with
  | [] => []
  | c :: rest =>
    if noEsc c then c :: escape rest
    else if c < 0x80 then escape1Rune c ++ escape rest
    else
      let rr := decodeRuneInString (c :: rest)
      if badRune rr.1 rr.2 then
        let oc := nonUtf8Chars (c :: rest)
        oc.1 ++ escape ((c :: rest).drop oc.2)
      else
        (if 0xFFFF < rr.1 then
          let ss := utf16EncodeRune rr.1
          escape1Rune ss.1 ++ escape1Rune ss.2
        else if rr.1 < 0xA0 then escape1Rune rr.1
        else (c :: rest).take rr.2)
        ++ escape ((c :: rest).drop rr.2)
termination_by s.length
decreasing_by
  · simp
  · simp
  · simp only [List.length_drop]
    refine Nat.sub_lt (by simp) ?_
    simpa [nonUtf8Chars] using nonUtf8Body_pos _ _
  · simp only [List.length_drop]
    refine Nat.sub_lt (by simp) ?_
    exact decodeRuneInString_pos _ _

/-- `(*buffer).escapeBytes` (the byte-slice twin of `escape`). -/
def escapeBytes (s : List Nat) : List Nat :=
  match s with
  | [] => []
  | c :: rest =>
    if noEsc c then c :: escapeBytes rest
    else if c < 0x80 then escape1Rune c ++ escapeBytes rest
    else
      let rr := decodeRune (c :: rest)
      if badRune rr.1 rr.2 then
        let oc := nonUtf8Bytes (c :: rest)
        oc.1 ++ escapeBytes ((c :: rest).drop oc.2)
      else
        (if 0xFFFF < rr.1 then
          let ss := utf16EncodeRune rr.1
          escape1Rune ss.1 ++ escape1Rune ss.2
        else if rr.1 < 0xA0 then escape1Rune rr.1
        else (c :: rest).take rr.2)
        ++ escapeBytes ((c :: rest).drop rr.2)
termination_by s.length
decreasing_by
  · simp
  · simp
  · simp only [List.length_drop]
    refine Nat.sub_lt (by simp) ?_
    simpa [nonUtf8Bytes] using nonUtf8BytesBody_pos _ _
  · simp only [List.length_drop]
    refine Nat.sub_lt (by simp) ?_
    exact decodeRune_pos _ _

theorem decodeRuneInString_eq_decodeRune (p : List Nat) :
    decodeRuneInString p = decodeRune p := by
  unfold decodeRuneInString decodeRune
  rfl

theorem nonUtf8Body_eq_nonUtf8BytesBody (s : List Nat) :
    nonUtf8Body s = nonUtf8BytesBody s := by
  induction s with
  | nil => rfl
  | cons c rest ih =>
    unfold nonUtf8Body nonUtf8BytesBody
    rw [decodeRuneInString_eq_decodeRune, ih]

theorem escape_eq_escapeBytes_all (s : List Nat) : escape s = escapeBytes s := by
  induction s using escape.induct with
  | case1 => rw [escape, escapeBytes]
  | case2 c rest h ih =>
    rw [escape, escapeBytes, if_pos h, if_pos h, ih]
  | case3 c rest h1 h2 ih =>
    rw [escape, escapeBytes, if_neg h1, if_neg h1, if_pos h2, if_pos h2, ih]
  | case4 c rest h1 h2 rr hbad oc ih =>
    have ih2 : escape (List.drop (nonUtf8Body (c :: rest)).2 (c :: rest)) =
        escapeBytes (List.drop (nonUtf8Body (c :: rest)).2 (c :: rest)) := ih
    rw [escape, escapeBytes, if_neg h1, if_neg h1, if_neg h2, if_neg h2]
    simp only [← decodeRuneInString_eq_decodeRune, if_pos hbad]
    simp only [nonUtf8Chars, nonUtf8Bytes, ← nonUtf8Body_eq_nonUtf8BytesBody]
    rw [ih2]
  | case5 c rest h1 h2 rr hbad ih =>
    rw [escape, escapeBytes, if_neg h1, if_neg h1, if_neg h2, if_neg h2]
    simp only [← decodeRuneInString_eq_decodeRune, if_neg hbad]
    rw [ih]

/-! ## A JSON string-literal grammar (specification side, for C1) -/

/-- ASCII hex digit as accepted by a JSON parser after a backslash-u. -/
def isHexDigitAscii (c : Nat) : Bool :=
  (0x30 ≤ c && c ≤ 0x39) || (0x41 ≤ c && c ≤ 0x46) || (0x61 ≤ c && c ≤ 0x66)

/-- Single characters allowed after a backslash in a JSON string. -/
def jsonEscChar (c : Nat) : Bool :=
  c == 0x22 || c == 0x5C || c == 0x2F || c == 0x62 || c == 0x66 ||
    c == 0x6E || c == 0x72 || c == 0x74

/-- Checker for the body of a JSON string literal (the bytes between the
two quotes) per the RFC 8259 grammar over UTF-8 text: each unescaped
byte is either printable ASCII other than the quote and the backslash,
or starts a valid multi-byte UTF-8 sequence; a backslash must start a
short escape or a four-hex-digit escape. -/
def jsonChars (s : List Nat) : Bool :=
  match s with
  | [] => true
  | c :: rest =>
    if c = 0x5C then
      match rest with
      | [] => false
      | e :: rest2 =>
        if jsonEscChar e then jsonChars rest2
        else if e = 0x75 then
          match rest2 with
          | h1 :: h2 :: h3 :: h4 :: rest3 =>
            isHexDigitAscii h1 && isHexDigitAscii h2 && isHexDigitAscii h3 &&
              isHexDigitAscii h4 && jsonChars rest3
          | _ => false
        else false
    else if 0x20 ≤ c ∧ c < 0x80 ∧ c ≠ 0x22 then jsonChars rest
    else if 0x80 ≤ c ∧ c < 0x100 then
      let rr := decodeRune (c :: rest)
      if badRune rr.1 rr.2 then false
      else jsonChars ((c :: rest).drop rr.2)
    else false
termination_by s.length
decreasing_by
  · simp only [List.length_cons]; omega
  · simp only [List.length_cons]; omega
  · simp only [List.length_cons]; omega
  · simp only [List.length_drop]
    refine Nat.sub_lt (by simp) ?_
    exact decodeRune_pos _ _

/-- A full JSON string literal: a quote, a valid body, a quote. -/
def jsonStringLit (t : List Nat) : Prop :=
  ∃ body, t = 0x22 :: (body ++ [0x22]) ∧ jsonChars body = true

theorem hexDigitU_range (n : Nat) (h : n < 16) :
    0x30 ≤ hexDigitU n ∧ hexDigitU n ≤ 0x46 := by
  unfold hexDigitU
  split <;> omega

theorem isHex_hexDigitU (n : Nat) (h : n < 16) :
    isHexDigitAscii (hexDigitU n) = true := by
  unfold hexDigitU isHexDigitAscii
  split <;> (simp; omega)

theorem jsonChars_cons_plain (c : Nat) (t : List Nat)
    (h1 : 0x20 ≤ c) (h2 : c < 0x80) (h3 : c ≠ 0x22) (h4 : c ≠ 0x5C) :
    jsonChars (c :: t) = jsonChars t := by
  rw [jsonChars.eq_def]
  dsimp only
  rw [if_neg h4, if_pos ⟨h1, h2, h3⟩]

theorem jsonChars_append_plain (l t : List Nat)
    (h : ∀ c ∈ l, 0x20 ≤ c ∧ c < 0x80 ∧ c ≠ 0x22 ∧ c ≠ 0x5C) :
    jsonChars (l ++ t) = jsonChars t := by
  induction l with
  | nil => rfl
  | cons c rest ih =>
    have hc := h c (by simp)
    rw [List.cons_append,
      jsonChars_cons_plain c _ hc.1 hc.2.1 hc.2.2.1 hc.2.2.2]
    exact ih (fun x hx => h x (by simp [hx]))

theorem jsonChars_esc2 (e : Nat) (t : List Nat) (he : jsonEscChar e = true) :
    jsonChars (0x5C :: e :: t) = jsonChars t := by
  rw [jsonChars.eq_def]
  dsimp only
  rw [if_pos rfl, if_pos he]

theorem jsonChars_escU (d1 d2 d3 d4 : Nat) (t : List Nat)
    (g1 : isHexDigitAscii d1 = true) (g2 : isHexDigitAscii d2 = true)
    (g3 : isHexDigitAscii d3 = true) (g4 : isHexDigitAscii d4 = true) :
    jsonChars (0x5C :: 0x75 :: d1 :: d2 :: d3 :: d4 :: t) = jsonChars t := by
  rw [jsonChars.eq_def]
  dsimp only
  rw [if_pos rfl, if_neg (by simp [jsonEscChar]), if_pos rfl]
  simp [g1, g2, g3, g4]

theorem jsonChars_escape1Rune (r : Nat) (t : List Nat) :
    jsonChars (escape1Rune r ++ t) = jsonChars t := by
  unfold escape1Rune
  split_ifs
  · exact jsonChars_esc2 _ _ (by decide)
  · exact jsonChars_esc2 _ _ (by decide)
  · exact jsonChars_esc2 _ _ (by decide)
  · exact jsonChars_esc2 _ _ (by decide)
  · exact jsonChars_esc2 _ _ (by decide)
  · exact jsonChars_esc2 _ _ (by decide)
  · exact jsonChars_esc2 _ _ (by decide)
  · simp only [List.cons_append, List.nil_append]
    exact jsonChars_escU _ _ _ _ t (isHex_hexDigitU _ (by omega))
      (isHex_hexDigitU _ (by omega)) (isHex_hexDigitU _ (by omega))
      (isHex_hexDigitU _ (by omega))

theorem decodeRune_c2 (b : Nat) (t : List Nat) (hb1 : 0x80 ≤ b)
    (hb2 : b ≤ 0xBF) : decodeRune (0xC2 :: b :: t) = (b, 2) := by
  rw [decodeRune]
  norm_num [utf8first, acceptLo, acceptHi]
  rw [if_neg (by omega)]
  simp only [Prod.mk.injEq]
  exact ⟨by omega, trivial⟩

theorem jsonChars_mb (c : Nat) (t : List Nat) (h1 : 0x80 ≤ c) (h2 : c < 0x100)
    (hbad : badRune (decodeRune (c :: t)).1 (decodeRune (c :: t)).2 = false) :
    jsonChars (c :: t) = jsonChars ((c :: t).drop (decodeRune (c :: t)).2) := by
  rw [jsonChars.eq_def]
  dsimp only
  rw [if_neg (by omega), if_neg (by omega), if_pos ⟨h1, h2⟩,
    if_neg (by simp [hbad])]

theorem jsonChars_c2 (b : Nat) (t : List Nat) (hb1 : 0x80 ≤ b)
    (hb2 : b ≤ 0xBF) : jsonChars (0xC2 :: b :: t) = jsonChars t := by
  have hd : decodeRune (0xC2 :: b :: t) = (b, 2) :=
    decodeRune_c2 b t hb1 hb2
  have hbad : badRune b 2 = false := by
    unfold badRune runeError
    simp
    omega
  rw [jsonChars_mb 0xC2 (b :: t) (by omega) (by omega) (by rw [hd]; exact hbad)]
  rw [hd]
  rfl

/-- A decode that succeeded inspects only the bytes it consumed: the
decoded prefix followed by anything decodes to the same result, and the
size is within bounds. -/
theorem decodeRune_take_append (p t : List Nat)
    (hbad : badRune (decodeRune p).1 (decodeRune p).2 = false) (hne : p ≠ []) :
    decodeRune (p.take (decodeRune p).2 ++ t) = decodeRune p ∧
      (decodeRune p).2 ≤ p.length := by
  cases p with
  | nil => exact absurd rfl hne
  | cons p0 rest =>
    by_cases hx0 : 0xF0 ≤ utf8first p0
    · by_cases hxa : utf8first p0 = 0xF0
      · have hd : decodeRune (p0 :: rest) = (p0, 1) := by
          rw [decodeRune]; dsimp only; rw [if_pos hx0, if_pos hxa]
        rw [hd]
        refine ⟨?_, by simp⟩
        have hts : (p0 :: rest).take 1 ++ t = p0 :: t := by simp
        rw [hts]
        rw [decodeRune]; dsimp only; rw [if_pos hx0, if_pos hxa]
      · have hd : decodeRune (p0 :: rest) = (runeError, 1) := by
          rw [decodeRune]; dsimp only; rw [if_pos hx0, if_neg hxa]
        rw [hd] at hbad
        simp [badRune, runeError] at hbad
    · cases rest with
      | nil =>
        have hd : decodeRune [p0] = (runeError, 1) := by
          rw [decodeRune]; dsimp only; rw [if_neg hx0]
        rw [hd] at hbad
        simp [badRune, runeError] at hbad
      | cons b1 rest2 =>
        by_cases hb1 : b1 < acceptLo (utf8first p0 / 16) ∨
            acceptHi (utf8first p0 / 16) < b1
        · have hd : decodeRune (p0 :: b1 :: rest2) = (runeError, 1) := by
            rw [decodeRune]; dsimp only; rw [if_neg hx0, if_pos hb1]
          rw [hd] at hbad
          simp [badRune, runeError] at hbad
        · by_cases hsz2 : utf8first p0 % 8 = 2
          · have hd : decodeRune (p0 :: b1 :: rest2) =
                (p0 % 0x20 * 0x40 + b1 % 0x40, 2) := by
              rw [decodeRune]; dsimp only
              rw [if_neg hx0, if_neg hb1, if_pos hsz2]
            rw [hd]
            refine ⟨?_, by simp⟩
            have hts : (p0 :: b1 :: rest2).take 2 ++ t = p0 :: b1 :: t := by
              simp
            rw [hts, decodeRune]; dsimp only
            rw [if_neg hx0, if_neg hb1, if_pos hsz2]
          · cases rest2 with
            | nil =>
              have hd : decodeRune [p0, b1] = (runeError, 1) := by
                rw [decodeRune]; dsimp only
                rw [if_neg hx0, if_neg hb1, if_neg hsz2]
              rw [hd] at hbad
              simp [badRune, runeError] at hbad
            | cons b2 rest3 =>
              by_cases hb2 : b2 < 0x80 ∨ 0xBF < b2
              · have hd : decodeRune (p0 :: b1 :: b2 :: rest3) =
                    (runeError, 1) := by
                  rw [decodeRune]; dsimp only
                  rw [if_neg hx0, if_neg hb1, if_neg hsz2, if_pos hb2]
                rw [hd] at hbad
                simp [badRune, runeError] at hbad
              · by_cases hsz3 : utf8first p0 % 8 = 3
                · have hd : decodeRune (p0 :: b1 :: b2 :: rest3) =
                      (p0 % 0x10 * 0x1000 + b1 % 0x40 * 0x40 + b2 % 0x40,
                        3) := by
                    rw [decodeRune]; dsimp only
                    rw [if_neg hx0, if_neg hb1, if_neg hsz2, if_neg hb2,
                      if_pos hsz3]
                  rw [hd]
                  refine ⟨?_, by simp⟩
                  have hts : (p0 :: b1 :: b2 :: rest3).take 3 ++ t =
                      p0 :: b1 :: b2 :: t := by simp
                  rw [hts, decodeRune]; dsimp only
                  rw [if_neg hx0, if_neg hb1, if_neg hsz2, if_neg hb2,
                    if_pos hsz3]
                · cases rest3 with
                  | nil =>
                    have hd : decodeRune [p0, b1, b2] = (runeError, 1) := by
                      rw [decodeRune]; dsimp only
                      rw [if_neg hx0, if_neg hb1, if_neg hsz2, if_neg hb2,
                        if_neg hsz3]
                    rw [hd] at hbad
                    simp [badRune, runeError] at hbad
                  | cons b3 rest4 =>
                    by_cases hb3 : b3 < 0x80 ∨ 0xBF < b3
                    · have hd : decodeRune (p0 :: b1 :: b2 :: b3 :: rest4) =
                          (runeError, 1) := by
                        rw [decodeRune]; dsimp only
                        rw [if_neg hx0, if_neg hb1, if_neg hsz2, if_neg hb2,
                          if_neg hsz3, if_pos hb3]
                      rw [hd] at hbad
                      simp [badRune, runeError] at hbad
                    · have hd : decodeRune (p0 :: b1 :: b2 :: b3 :: rest4) =
                          (p0 % 8 * 0x40000 + b1 % 0x40 * 0x1000 +
                            b2 % 0x40 * 0x40 + b3 % 0x40, 4) := by
                        rw [decodeRune]; dsimp only
                        rw [if_neg hx0, if_neg hb1, if_neg hsz2, if_neg hb2,
                          if_neg hsz3, if_neg hb3]
                      rw [hd]
                      refine ⟨?_, by simp⟩
                      have hts : (p0 :: b1 :: b2 :: b3 :: rest4).take 4 ++ t =
                          p0 :: b1 :: b2 :: b3 :: t := by simp
                      rw [hts, decodeRune]; dsimp only
                      rw [if_neg hx0, if_neg hb1, if_neg hsz2, if_neg hb2,
                        if_neg hsz3, if_neg hb3]

/-- An invalid decode can only start at a byte at or above 0x80 (every
ASCII byte decodes to itself, validly). -/
theorem badRune_first (c : Nat) (rest : List Nat)
    (h : badRune (decodeRuneInString (c :: rest)).1
      (decodeRuneInString (c :: rest)).2 = true) : 0x80 ≤ c := by
  by_contra hc
  have hxa : utf8first c = 0xF0 := by
    unfold utf8first
    rw [if_pos (by omega)]
  have hd : decodeRuneInString (c :: rest) = (c, 1) := by
    rw [decodeRuneInString]; dsimp only
    rw [if_pos (by omega), if_pos hxa]
  rw [hd] at h
  simp [badRune, runeError] at h
  omega

theorem writeByteHex_plain (c : Nat) (h : c < 256) :
    ∀ d ∈ writeByteHex c, 0x20 ≤ d ∧ d < 0x80 ∧ d ≠ 0x22 ∧ d ≠ 0x5C := by
  intro d hd
  have r1 := hexDigitU_range (c / 16) (by omega)
  have r2 := hexDigitU_range (c % 16) (by omega)
  simp [writeByteHex] at hd
  rcases hd with h1 | h2 <;> subst_vars <;> exact ⟨by omega, by omega, by omega, by omega⟩

/-- The hex digits written by the nonUtf8 loop are exactly two uppercase
hex digits per consumed byte, in the original byte order. -/
theorem nonUtf8Body_hex (s : List Nat) :
    (nonUtf8Body s).1 =
      ((s.take (nonUtf8Body s).2).map writeByteHex).flatten := by
  induction s with
  | nil => simp [nonUtf8Body]
  | cons c rest ih =>
    rw [nonUtf8Body]
    dsimp only
    split
    · simp
    · split
      · rw [Nat.add_comm 1, List.take_succ_cons, List.map_cons,
          List.flatten_cons, ih]
      · simp

/-- Every byte the nonUtf8 loop consumes after the first sits at a
position where decoding fails. -/
theorem nonUtf8Body_bad_at (s : List Nat) :
    ∀ i, 1 ≤ i → i < (nonUtf8Body s).2 →
      badRune (decodeRuneInString (s.drop i)).1
        (decodeRuneInString (s.drop i)).2 = true := by
  induction s with
  | nil => intro i h1 h2; simp [nonUtf8Body] at h2
  | cons c rest ih =>
    intro i h1 h2
    rw [nonUtf8Body] at h2
    dsimp only at h2
    rcases Nat.exists_eq_add_of_le h1 with ⟨j, rfl⟩
    simp only [List.drop_succ_cons, Nat.add_comm 1 j] at *
    revert h2
    split
    · intro h2; omega
    · split
      · intro h2
        rename_i hb
        cases j with
        | zero => simpa using hb
        | succ j2 => exact ih (j2 + 1) (by omega) (by omega)
      · intro h2; omega

/-- The nonUtf8 loop stops at the end of the input or at the first
position where decoding succeeds. -/
theorem nonUtf8Body_stop (s : List Nat) :
    (nonUtf8Body s).2 = s.length ∨
      badRune (decodeRuneInString (s.drop (nonUtf8Body s).2)).1
        (decodeRuneInString (s.drop (nonUtf8Body s).2)).2 = false := by
  induction s with
  | nil => left; simp [nonUtf8Body]
  | cons c rest ih =>
    rw [nonUtf8Body]
    dsimp only
    split
    · left
      subst_vars
      rfl
    · split
      · rcases ih with h | h
        · left
          simp [h, Nat.add_comm]
        · right
          simpa [Nat.add_comm] using h
      · right
        rename_i hb
        simpa using hb

theorem noEsc_bounds (c : Nat) (h : noEsc c = true) :
    0x20 ≤ c ∧ c < 0x7F ∧ c ≠ 0x22 ∧ c ≠ 0x5C := by
  simp [noEsc] at h
  exact ⟨h.1.1.1, h.1.1.2, h.1.2, h.2⟩

/-- Every escaped output is a syntactically valid JSON string body. -/
theorem jsonChars_escape (s : List Nat) :
    (∀ c ∈ s, c < 256) → jsonChars (escape s) = true := by
  induction s using escape.induct with
  | case1 =>
    intro h256
    rw [escape]
    rw [jsonChars.eq_def]
  | case2 c rest h ih =>
    intro h256
    rw [escape, if_pos h]
    have hb := noEsc_bounds c h
    rw [jsonChars_cons_plain c _ hb.1 (by omega) hb.2.2.1 hb.2.2.2]
    exact ih (fun x hx => h256 x (by simp [hx]))
  | case3 c rest h1 h2 ih =>
    intro h256
    rw [escape, if_neg h1, if_pos h2]
    rw [jsonChars_escape1Rune]
    exact ih (fun x hx => h256 x (by simp [hx]))
  | case4 c rest h1 h2 rr hbad oc ih =>
    intro h256
    rw [escape, if_neg h1, if_neg h2, if_pos hbad]
    have ih2 : jsonChars
        (escape (List.drop (nonUtf8Body (c :: rest)).2 (c :: rest))) = true :=
      ih (fun x hx => h256 x (List.drop_subset _ _ hx))
    show jsonChars ((nonUtf8Chars (c :: rest)).1 ++
      escape (List.drop (nonUtf8Body (c :: rest)).2 (c :: rest))) = true
    have hsh : (nonUtf8Chars (c :: rest)).1 ++
        escape (List.drop (nonUtf8Body (c :: rest)).2 (c :: rest)) =
        0xC2 :: 0xAB :: 0x78 :: ((nonUtf8Body (c :: rest)).1 ++
          (0xC2 :: 0xBB ::
            escape (List.drop (nonUtf8Body (c :: rest)).2 (c :: rest)))) := by
      show ([0xC2, 0xAB, 0x78] ++ (nonUtf8Body (c :: rest)).1 ++
        [0xC2, 0xBB]) ++ _ = _
      simp
    rw [hsh]
    rw [jsonChars_c2 0xAB _ (by omega) (by omega)]
    rw [jsonChars_cons_plain 0x78 _ (by omega) (by omega) (by omega) (by omega)]
    rw [jsonChars_append_plain _ _ ?hex]
    case hex =>
      intro x hx
      rw [nonUtf8Body_hex] at hx
      simp only [List.mem_flatten, List.mem_map] at hx
      rcases hx with ⟨l2, ⟨b, hb2, rfl⟩, hxl⟩
      exact writeByteHex_plain b
        (h256 b (List.take_subset _ _ hb2)) x hxl
    rw [jsonChars_c2 0xBB _ (by omega) (by omega)]
    exact ih2
  | case5 c rest h1 h2 rr hbad ih =>
    intro h256
    rw [escape, if_neg h1, if_neg h2, if_neg hbad]
    have ih2 : jsonChars (escape
        (List.drop (decodeRuneInString (c :: rest)).2 (c :: rest))) = true :=
      ih (fun x hx => h256 x (List.drop_subset _ _ hx))
    by_cases hbig : 0xFFFF < (decodeRuneInString (c :: rest)).1
    · rw [if_pos hbig]
      rw [List.append_assoc, jsonChars_escape1Rune, jsonChars_escape1Rune]
      exact ih2
    · rw [if_neg hbig]
      by_cases hlo : (decodeRuneInString (c :: rest)).1 < 0xA0
      · rw [if_pos hlo, jsonChars_escape1Rune]
        exact ih2
      · rw [if_neg hlo]
        rw [decodeRuneInString_eq_decodeRune] at ih2 ⊢
        have hbad2 : badRune (decodeRune (c :: rest)).1
            (decodeRune (c :: rest)).2 = false := by
          rw [← decodeRuneInString_eq_decodeRune]
          simpa using hbad
        have hta := decodeRune_take_append (c :: rest)
          (escape (List.drop (decodeRune (c :: rest)).2 (c :: rest)))
          hbad2 (by simp)
        have hpos := decodeRune_pos c rest
        obtain ⟨k, hk⟩ : ∃ k, (decodeRune (c :: rest)).2 = k + 1 :=
          ⟨(decodeRune (c :: rest)).2 - 1, by omega⟩
        have hshape : List.take (decodeRune (c :: rest)).2 (c :: rest) ++
            escape (List.drop (decodeRune (c :: rest)).2 (c :: rest)) =
            c :: (List.take k rest ++
              escape (List.drop (decodeRune (c :: rest)).2 (c :: rest))) := by
          rw [hk]
          simp
        rw [hshape]
        have hdec2 : decodeRune (c :: (List.take k rest ++
            escape (List.drop (decodeRune (c :: rest)).2 (c :: rest)))) =
            decodeRune (c :: rest) := by
          have h3 := hta.1
          rw [hshape] at h3
          exact h3
        rw [jsonChars_mb c _ (by omega) (h256 c (by simp))
          (by rw [hdec2]; exact hbad2)]
        rw [hdec2]
        have hlen : (List.take k rest).length = k := by
          have h4 := hta.2
          rw [hk] at h4
          simp only [List.length_cons] at h4
          exact List.length_take_of_le (by omega)
        rw [hk]
        rw [List.drop_succ_cons]
        rw [List.drop_left' hlen]
        rw [hk] at ih2
        exact ih2

theorem hexDigitU_upper (n : Nat) (h : n < 16) :
    (0x30 ≤ hexDigitU n ∧ hexDigitU n ≤ 0x39) ∨
      (0x41 ≤ hexDigitU n ∧ hexDigitU n ≤ 0x46) := by
  unfold hexDigitU
  split
  · left; omega
  · right; omega

/-- Unfolding of `escape` at the start of an invalid run: the sentinel
token, then recursion after the consumed run. -/
theorem escape_bad_step (s : List Nat)
    (hbad : badRune (decodeRuneInString s).1
      (decodeRuneInString s).2 = true) :
    escape s = [0xC2, 0xAB, 0x78] ++
      ((s.take (nonUtf8Body s).2).map writeByteHex).flatten ++
      ([0xC2, 0xBB] ++ escape (s.drop (nonUtf8Body s).2)) := by
  cases s with
  | nil =>
    rw [decodeRuneInString] at hbad
    simp [badRune, runeError] at hbad
  | cons c rest =>
    have hc80 := badRune_first c rest hbad
    have hno : ¬ noEsc c = true := by
      simp [noEsc]
      omega
    rw [escape, if_neg hno, if_neg (by omega), if_pos hbad]
    show (nonUtf8Chars (c :: rest)).1 ++
      escape (List.drop (nonUtf8Chars (c :: rest)).2 (c :: rest)) = _
    rw [show (nonUtf8Chars (c :: rest)).1 = [0xC2, 0xAB, 0x78] ++
      (nonUtf8Body (c :: rest)).1 ++ [0xC2, 0xBB] from rfl]
    rw [nonUtf8Body_hex]
    rw [show (nonUtf8Chars (c :: rest)).2 = (nonUtf8Body (c :: rest)).2
      from rfl]
    simp

/-- C1.  At the start of every maximal run of invalid bytes, `escape`
emits the single sentinel token `«x` + two uppercase hex digits per
invalid byte (in original byte order) + `»`, resumes scanning right
after the run (which ends at the end of input or at the next position
where a rune decodes validly), inserts no Unicode replacement character
(no 0xEF byte, the lead byte of the UTF-8 form of U+FFFD, occurs in the
token), and the whole quoted output is a syntactically valid JSON
string literal. -/
theorem c1_invalid_byte_runs (s : List Nat) (h256 : ∀ c ∈ s, c < 256)
    (hbad : badRune (decodeRuneInString s).1
      (decodeRuneInString s).2 = true) :
    1 ≤ (nonUtf8Body s).2 ∧ (nonUtf8Body s).2 ≤ s.length ∧
    (∀ i, i < (nonUtf8Body s).2 →
      badRune (decodeRuneInString (s.drop i)).1
        (decodeRuneInString (s.drop i)).2 = true) ∧
    ((nonUtf8Body s).2 = s.length ∨
      badRune (decodeRuneInString (s.drop (nonUtf8Body s).2)).1
        (decodeRuneInString (s.drop (nonUtf8Body s).2)).2 = false) ∧
    escape s = [0xC2, 0xAB, 0x78] ++
      ((s.take (nonUtf8Body s).2).map writeByteHex).flatten ++
      ([0xC2, 0xBB] ++ escape (s.drop (nonUtf8Body s).2)) ∧
    (∀ d ∈ ((s.take (nonUtf8Body s).2).map writeByteHex).flatten,
      (0x30 ≤ d ∧ d ≤ 0x39) ∨ (0x41 ≤ d ∧ d ≤ 0x46)) ∧
    (∀ d ∈ [0xC2, 0xAB, 0x78] ++
      ((s.take (nonUtf8Body s).2).map writeByteHex).flatten ++ [0xC2, 0xBB],
      d ≠ 0xEF) ∧
    escapeBytes s = escape s ∧
    jsonStringLit (0x22 :: (escape s ++ [0x22])) := by
  have hne : s ≠ [] := by
    intro h
    subst h
    rw [decodeRuneInString] at hbad
    simp [badRune, runeError] at hbad
  have hdig : ∀ d ∈ ((s.take (nonUtf8Body s).2).map writeByteHex).flatten,
      (0x30 ≤ d ∧ d ≤ 0x39) ∨ (0x41 ≤ d ∧ d ≤ 0x46) := by
    intro d hd
    simp only [List.mem_flatten, List.mem_map] at hd
    rcases hd with ⟨l2, ⟨b, hb2, rfl⟩, hdl⟩
    have hb256 : b < 256 := h256 b (List.take_subset _ _ hb2)
    simp [writeByteHex] at hdl
    rcases hdl with h | h <;> subst_vars
    · exact hexDigitU_upper _ (by omega)
    · exact hexDigitU_upper _ (by omega)
  refine ⟨?_, nonUtf8Body_le s, ?_, nonUtf8Body_stop s, escape_bad_step s hbad,
    hdig, ?_, (escape_eq_escapeBytes_all s).symm, ?_⟩
  · cases s with
    | nil => exact absurd rfl hne
    | cons c rest => exact nonUtf8Body_pos c rest
  · intro i hi
    cases i with
    | zero => simpa using hbad
    | succ i2 => exact nonUtf8Body_bad_at s (i2 + 1) (by omega) hi
  · intro d hd
    simp only [List.append_assoc, List.mem_append, List.mem_cons,
      List.not_mem_nil] at hd
    rcases hd with h | h | h
    · simp at h
      omega
    · have := hdig d h
      omega
    · simp at h
      omega
  · exact ⟨escape s, rfl, jsonChars_escape s h256⟩

/-- Witness for C1 at the concrete input 0x9A (a lone continuation
byte, as in the repository's own test expecting `«x9A»`). -/
theorem c1_invalid_byte_runs_witness :
    (∀ c ∈ [0x9A], c < 256) ∧
    badRune (decodeRuneInString [0x9A]).1 (decodeRuneInString [0x9A]).2 =
      true ∧
    escape [0x9A] = [0xC2, 0xAB, 0x78, 0x39, 0x41, 0xC2, 0xBB] := by
  refine ⟨by decide, by decide, ?_⟩
  have h := (c1_invalid_byte_runs [0x9A] (by decide) (by decide)).2.2.2.2.1
  rw [h]
  have hn : (nonUtf8Body [0x9A]).2 = 1 := by decide
  have he : escape (List.drop (nonUtf8Body [0x9A]).2 [0x9A]) = [] := by
    rw [hn]
    show escape [] = []
    rw [escape]
  rw [he, hn]
  decide

/-- C6.  The string-input escaper and the byte-slice-input escaper
produce byte-for-byte identical output on every input. -/
theorem c6_escape_eq_escapeBytes (s : List Nat) : escape s = escapeBytes s :=
  escape_eq_escapeBytes_all s

/-! ## buf.go: timestamp rendering (C8) -/

/-- Decimal digits of a natural number, most significant first (model
of `strconv.AppendInt` for the nonnegative values used here). -/
def decRep (v : Nat) : List Nat :=
  if v < 10 then [0x30 + v] else decRep (v / 10) ++ [0x30 + v % 10]
termination_by v
decreasing_by
  exact Nat.div_lt_self (by omega) (by omega)

/-- `(*buffer).int2`: two digits with a leading zero. -/
def int2Go (v : Nat) : List Nat := [0x30 + v / 10, 0x30 + v % 10]

/-- `(*buffer).int`: decimal rendering left-padded with zeros to the
requested number of digits (the Go code copies the digits right and
fills the gap with zeros; prepending the zeros is byte-identical). -/
def intPadGo (v digits : Nat) : List Nat :=
  List.replicate (digits - (decRep v).length) 0x30 ++ decRep v

/-- `(*buffer).timestamp`, parameterized by the broken-down UTC wall
time obtained from `time.Now().In(time.UTC)` and by whether a key
scheme is configured (`nil == b.g.keys` selects the space separator;
otherwise the `T` separator).  Note the closing `Z"` is written
unconditionally in the source. -/
def timestampGo (keysSet : Bool) (yr mo day hr min sec ns : Nat) :
    List Nat :=
  [0x22] ++ decRep yr ++ [0x2D] ++ int2Go mo ++ [0x2D] ++ int2Go day ++
  [if keysSet then 0x54 else 0x20] ++
  int2Go hr ++ [0x3A] ++ int2Go min ++ [0x3A] ++ int2Go sec ++
  [0x2E] ++ intPadGo (ns / 100000) 4 ++ [0x5A, 0x22]

/-- Specification-side rendering: the low `w` decimal digits of `v`,
zero padded to exactly `w` characters. -/
def padDec : Nat → Nat → List Nat
  | 0, _ => []
  | w + 1, v => padDec w (v / 10) ++ [0x30 + v % 10]

theorem padDec_length (w v : Nat) : (padDec w v).length = w := by
  induction w generalizing v with
  | zero => rfl
  | succ w2 ih => simp [padDec, ih]

theorem decRep_1digit (v : Nat) (h : v < 10) : decRep v = [0x30 + v] := by
  rw [decRep, if_pos h]

theorem decRep_2digits (v : Nat) (h1 : 10 ≤ v) (h2 : v < 100) :
    decRep v = [0x30 + v / 10, 0x30 + v % 10] := by
  rw [decRep, if_neg (by omega), decRep_1digit _ (by omega)]
  rfl

theorem decRep_3digits (v : Nat) (h1 : 100 ≤ v) (h2 : v < 1000) :
    decRep v = [0x30 + v / 100, 0x30 + v / 10 % 10, 0x30 + v % 10] := by
  rw [decRep, if_neg (by omega), decRep_2digits _ (by omega) (by omega)]
  have : v / 10 / 10 = v / 100 := by omega
  simp [this]

theorem decRep_4digits (v : Nat) (h1 : 1000 ≤ v) (h2 : v < 10000) :
    decRep v = [0x30 + v / 1000, 0x30 + v / 100 % 10, 0x30 + v / 10 % 10,
      0x30 + v % 10] := by
  rw [decRep, if_neg (by omega), decRep_3digits _ (by omega) (by omega)]
  have e1 : v / 10 / 100 = v / 1000 := by omega
  have e2 : v / 10 / 10 = v / 100 := by omega
  simp [e1, e2]

theorem int2_eq_padDec (v : Nat) (h : v < 100) : int2Go v = padDec 2 v := by
  simp [int2Go, padDec]
  omega

theorem decRep4_eq_padDec (v : Nat) (h1 : 1000 ≤ v) (h2 : v < 10000) :
    decRep v = padDec 4 v := by
  rw [decRep_4digits v h1 h2]
  simp [padDec] <;> omega

theorem intPad4_eq_padDec (v : Nat) (h : v < 10000) :
    intPadGo v 4 = padDec 4 v := by
  unfold intPadGo
  by_cases c1 : v < 10
  · rw [decRep_1digit v c1]
    simp [padDec] <;> omega
  · by_cases c2 : v < 100
    · rw [decRep_2digits v (by omega) c2]
      simp [padDec] <;> omega
    · by_cases c3 : v < 1000
      · rw [decRep_3digits v (by omega) c3]
        simp [padDec] <;> omega
      · rw [decRep_4digits v (by omega) (by omega)]
        simp [padDec] <;> omega

/-- C8 counterexample.  In array mode (no key scheme) the timestamp for
2024-01-02 03:04:05.123456789 UTC renders with a space separator but
STILL carries the trailing `Z` before the closing quote, so the
claimed array-mode format `YYYY-MM-DD HH:MM:SS.ffff` (no trailing
designator) does not match the code's output. -/
theorem c8_counterexample :
    timestampGo false 2024 1 2 3 4 5 123456789 =
      [0x22, 0x32, 0x30, 0x32, 0x34, 0x2D, 0x30, 0x31, 0x2D, 0x30, 0x32,
       0x20, 0x30, 0x33, 0x3A, 0x30, 0x34, 0x3A, 0x30, 0x35, 0x2E,
       0x31, 0x32, 0x33, 0x34, 0x5A, 0x22] ∧
    timestampGo false 2024 1 2 3 4 5 123456789 ≠
      [0x22, 0x32, 0x30, 0x32, 0x34, 0x2D, 0x30, 0x31, 0x2D, 0x30, 0x32,
       0x20, 0x30, 0x33, 0x3A, 0x30, 0x34, 0x3A, 0x30, 0x35, 0x2E,
       0x31, 0x32, 0x33, 0x34, 0x22] := by
  have he : timestampGo false 2024 1 2 3 4 5 123456789 =
      [0x22, 0x32, 0x30, 0x32, 0x34, 0x2D, 0x30, 0x31, 0x2D, 0x30, 0x32,
       0x20, 0x30, 0x33, 0x3A, 0x30, 0x34, 0x3A, 0x30, 0x35, 0x2E,
       0x31, 0x32, 0x33, 0x34, 0x5A, 0x22] := by
    rw [timestampGo, decRep_4digits 2024 (by omega) (by omega)]
    rw [show (123456789 : Nat) / 100000 = 1234 from by norm_num]
    rw [intPadGo, decRep_4digits 1234 (by omega) (by omega)]
    rfl
  refine ⟨he, ?_⟩
  rw [he]
  decide

/-- C8 amended.  The capture-time timestamp is rendered as the quoted
string YYYY-MM-DD HH:MM:SS.ffffZ in array mode (space separator) and
YYYY-MM-DDTHH:MM:SS.ffffZ in object mode (T separator): both modes end
with the `Z` designator, and the fractional part has exactly four
digits (100-microsecond resolution) in both modes. -/
theorem c8_timestamp_format (keysSet : Bool) (yr mo day hr min sec ns : Nat)
    (hyr1 : 1000 ≤ yr) (hyr2 : yr < 10000) (hmo : mo < 100)
    (hday : day < 100) (hhr : hr < 100) (hmin : min < 100) (hsec : sec < 100)
    (hns : ns < 1000000000) :
    timestampGo keysSet yr mo day hr min sec ns =
      [0x22] ++ padDec 4 yr ++ [0x2D] ++ padDec 2 mo ++ [0x2D] ++
      padDec 2 day ++ [if keysSet then 0x54 else 0x20] ++ padDec 2 hr ++
      [0x3A] ++ padDec 2 min ++ [0x3A] ++ padDec 2 sec ++ [0x2E] ++
      padDec 4 (ns / 100000) ++ [0x5A, 0x22] ∧
    (padDec 4 (ns / 100000)).length = 4 := by
  constructor
  · rw [timestampGo, decRep4_eq_padDec yr hyr1 hyr2, int2_eq_padDec mo hmo,
      int2_eq_padDec day hday, int2_eq_padDec hr hhr, int2_eq_padDec min hmin,
      int2_eq_padDec sec hsec, intPad4_eq_padDec _ (by omega)]
  · exact padDec_length 4 _

/-- Witness for the amended C8 at a concrete time in object mode. -/
theorem c8_timestamp_format_witness :
    (1000 ≤ 2024 ∧ 2024 < 10000 ∧ 12 < 100 ∧ 31 < 100 ∧ 23 < 100 ∧
      59 < 100 ∧ 58 < 100 ∧ 999999999 < 1000000000) ∧
    (timestampGo true 2024 12 31 23 59 58 999999999 =
      [0x22] ++ padDec 4 2024 ++ [0x2D] ++ padDec 2 12 ++ [0x2D] ++
      padDec 2 31 ++ [if true then 0x54 else 0x20] ++ padDec 2 23 ++
      [0x3A] ++ padDec 2 59 ++ [0x3A] ++ padDec 2 58 ++ [0x2E] ++
      padDec 4 (999999999 / 100000) ++ [0x5A, 0x22] ∧
    (padDec 4 (999999999 / 100000 : Nat)).length = 4) :=
  ⟨by norm_num,
    c8_timestamp_format true 2024 12 31 23 59 58 999999999 (by norm_num)
      (by norm_num) (by norm_num) (by norm_num) (by norm_num) (by norm_num)
      (by norm_num) (by norm_num)⟩

/-! ## lager.go: severity levels, output routing (C2), registry (C7) -/

/-- The 11 internal log levels (`lPanic` .. `lGuts` in lager.go). -/
inductive Level where
  | lPanic | lExit | lFail | lWarn | lNote | lAcc | lInfo | lTrace
  | lDebug | lObj | lGuts
deriving DecidableEq

/-- An output destination: os.Stdout, os.Stderr, or any other
io.Writer installed via SetOutput (distinguished by a tag). -/
inductive Dest where
  | stdout
  | stderr
  | custom (id : Nat)
deriving DecidableEq

/-- The writer selection at the top of `(*logger).start`: Panic and
Exit pick os.Stderr, every other level picks os.Stdout; then a non-nil
global override `b.g.dest` unconditionally replaces that choice. -/
def startWriter (lev : Level) (dest : Option Dest) : Dest :=
  let w : Dest := match lev with
    | .lPanic | .lExit => .stderr
    | _ => .stdout
  match dest with
  | some d => d
  | none => w

/-- A slot of the `globals.lagers` table: the shared no-op Lager or an
active `*logger` bound to its level. -/
inductive LagerK where
  | noopK
  | loggerK (lev : Level)
deriving DecidableEq

/-- The parts of `globals` that `setLevels` touches. -/
structure Globals where
  lagers : Level → LagerK
  enabled : List Char

/-- The switch inside `setLevels`: which level a configuration letter
enables; any other character hits `default: continue` (is skipped). -/
def levelForChar (c : Char) : Option Level :=
  if c = 'F' then some .lFail
  else if c = 'W' then some .lWarn
  else if c = 'N' then some .lNote
  else if c = 'A' then some .lAcc
  else if c = 'I' then some .lInfo
  else if c = 'T' then some .lTrace
  else if c = 'D' then some .lDebug
  else if c = 'O' then some .lObj
  else if c = 'G' then some .lGuts
  else none

/-- The character loop of `setLevels`: enabling letters install an
active logger for their level and are recorded once in `enabled`;
other characters are ignored. -/
def setLevelsLoop (g : Globals) : List Char → Globals
  | [] => g
  | c :: cs =>
    match levelForChar c with
    | none => setLevelsLoop g cs
    | some l =>
      setLevelsLoop
        ⟨fun x => if x = l then LagerK.loggerK l else g.lagers x,
          if g.enabled.contains c then g.enabled else g.enabled ++ [c]⟩ cs

/-- `setLevels(levels)` applied to a globals copy: levels lFail..lGuts
are first all reset to the no-op, the empty string defaults to "FWNA",
then the character loop runs.  The slots for lPanic and lExit are never
written. -/
def setLevelsGo (levels : List Char) (g : Globals) : Globals :=
  setLevelsLoop
    ⟨fun x => if x = Level.lPanic ∨ x = Level.lExit then g.lagers x
      else LagerK.noopK, []⟩
    (if levels = [] then ['F', 'W', 'N', 'A'] else levels)

/-- `firstInit`: `lagers[lPanic]` and `lagers[lExit]` are bound to
active loggers, then `setLevels(os.Getenv("LAGER_LEVELS"))` runs.  The
remaining slots start as the Go interface zero value and are
immediately overwritten by `setLevels`; they are modelled as the
no-op. -/
def firstInitGo (envLevels : List Char) : Globals :=
  setLevelsGo envLevels
    ⟨fun l => match l with
      | .lPanic => .loggerK .lPanic
      | .lExit => .loggerK .lExit
      | _ => .noopK, []⟩

theorem levelForChar_ne (c : Char) (l : Level) (h : levelForChar c = some l) :
    l ≠ .lPanic ∧ l ≠ .lExit := by
  unfold levelForChar at h
  split_ifs at h <;> simp_all <;> subst_vars <;> exact ⟨by decide, by decide⟩

theorem setLevelsLoop_panic_exit (cs : List Char) (g : Globals) :
    (setLevelsLoop g cs).lagers .lPanic = g.lagers .lPanic ∧
    (setLevelsLoop g cs).lagers .lExit = g.lagers .lExit := by
  induction cs generalizing g with
  | nil => exact ⟨rfl, rfl⟩
  | cons c cs2 ih =>
    rw [setLevelsLoop]
    cases hc : levelForChar c with
    | none => exact ih g
    | some l =>
      have hne := levelForChar_ne c l hc
      have h2 := ih ⟨fun x => if x = l then LagerK.loggerK l else g.lagers x,
        if g.enabled.contains c then g.enabled else g.enabled ++ [c]⟩
      refine ⟨h2.1.trans ?_, h2.2.trans ?_⟩
      · show (if Level.lPanic = l then LagerK.loggerK l
          else g.lagers Level.lPanic) = g.lagers Level.lPanic
        exact if_neg (fun h => hne.1 h.symm)
      · show (if Level.lExit = l then LagerK.loggerK l
          else g.lagers Level.lExit) = g.lagers Level.lExit
        exact if_neg (fun h => hne.2 h.symm)

theorem setLevelsGo_panic_exit (levels : List Char) (g : Globals) :
    (setLevelsGo levels g).lagers .lPanic = g.lagers .lPanic ∧
    (setLevelsGo levels g).lagers .lExit = g.lagers .lExit := by
  unfold setLevelsGo
  have h := setLevelsLoop_panic_exit
    (if levels = [] then ['F', 'W', 'N', 'A'] else levels)
    ⟨fun x => if x = Level.lPanic ∨ x = Level.lExit then g.lagers x
      else LagerK.noopK, []⟩
  rw [h.1, h.2]
  constructor
  · simp
  · simp

/-- C2 counterexample.  With a global output override installed that is
not os.Stderr, a Panic-severity line is written to the override, not to
os.Stderr — contradicting the claim that Panic/Exit bytes go to the
error destination regardless of the configured override. -/
theorem c2_counterexample :
    startWriter Level.lPanic (some (Dest.custom 0)) = Dest.custom 0 ∧
    startWriter Level.lExit (some (Dest.custom 0)) = Dest.custom 0 ∧
    Dest.custom 0 ≠ Dest.stderr := by
  exact ⟨rfl, rfl, by decide⟩

/-- C2 amended.  When no output override is configured, Panic and Exit
lines go to os.Stderr while every other level goes to os.Stdout; when
an override is configured, every line — Panic and Exit included — goes
to the override. -/
theorem c2_panic_exit_routing (lev : Level) (d : Dest) :
    (startWriter lev none =
      if lev = Level.lPanic ∨ lev = Level.lExit then Dest.stderr
      else Dest.stdout) ∧
    startWriter lev (some d) = d := by
  cases lev <;> exact ⟨by decide, rfl⟩

/-- C7.  Starting from first initialization (with any LAGER_LEVELS
value) and applying any sequence of Init/setLevels configuration
strings, the lPanic and lExit slots of the severity table are always
bound to active loggers and never to the no-op; only the other nine
levels can be disabled.  The empty configuration string behaves exactly
like "FWNA", and a character that is not one of "FWNAITDOG" is skipped
by the configuration loop. -/
theorem c7_panic_exit_always_active (envLevels : List Char)
    (cfgs : List (List Char)) :
    (cfgs.foldl (fun g lv => setLevelsGo lv g)
        (firstInitGo envLevels)).lagers .lPanic = .loggerK .lPanic ∧
    (cfgs.foldl (fun g lv => setLevelsGo lv g)
        (firstInitGo envLevels)).lagers .lExit = .loggerK .lExit ∧
    (∀ l, (cfgs.foldl (fun g lv => setLevelsGo lv g)
        (firstInitGo envLevels)).lagers l = .noopK →
      l ≠ .lPanic ∧ l ≠ .lExit) ∧
    (∀ g : Globals, setLevelsGo [] g = setLevelsGo ['F', 'W', 'N', 'A'] g) ∧
    (∀ (g : Globals) (c : Char) (cs : List Char), levelForChar c = none →
      setLevelsLoop g (c :: cs) = setLevelsLoop g cs) := by
  have hbase : ∀ g0 : Globals, g0.lagers .lPanic = .loggerK .lPanic →
      g0.lagers .lExit = .loggerK .lExit →
      (cfgs.foldl (fun g lv => setLevelsGo lv g) g0).lagers .lPanic =
        .loggerK .lPanic ∧
      (cfgs.foldl (fun g lv => setLevelsGo lv g) g0).lagers .lExit =
        .loggerK .lExit := by
    induction cfgs with
    | nil => exact fun g0 h1 h2 => ⟨h1, h2⟩
    | cons lv cfgs2 ih =>
      intro g0 h1 h2
      have hp := setLevelsGo_panic_exit lv g0
      exact ih (setLevelsGo lv g0) (hp.1.trans h1) (hp.2.trans h2)
  have hinit := setLevelsGo_panic_exit envLevels
    ⟨fun l => match l with
      | .lPanic => .loggerK .lPanic
      | .lExit => .loggerK .lExit
      | _ => .noopK, []⟩
  have hmain := hbase (firstInitGo envLevels) (by rw [firstInitGo, hinit.1])
    (by rw [firstInitGo, hinit.2])
  refine ⟨hmain.1, hmain.2, ?_, ?_, ?_⟩
  · intro l hl
    constructor
    · intro h
      subst h
      rw [hmain.1] at hl
      exact LagerK.noConfusion hl
    · intro h
      subst h
      rw [hmain.2] at hl
      exact LagerK.noConfusion hl
  · intro g
    rfl
  · intro g c cs hc
    rw [setLevelsLoop, hc]

/-- Witness for C7 (and its inner implications) at concrete inputs. -/
theorem c7_panic_exit_always_active_witness :
    (List.foldl (fun g lv => setLevelsGo lv g)
        (firstInitGo ['F', 'X'])
        [['-'], ['G']]).lagers .lPanic = .loggerK .lPanic ∧
    levelForChar 'x' = none ∧
    setLevelsLoop (firstInitGo []) ['x'] = setLevelsLoop (firstInitGo []) [] :=
  ⟨(c7_panic_exit_always_active ['F', 'X'] [['-'], ['G']]).1,
    by decide,
    (c7_panic_exit_always_active [] []).2.2.2.2 (firstInitGo []) 'x' []
      (by decide)⟩

/-! ## data.go: tokens, S(), KVPairs, AddPairs (C5), Merge (C4) -/

/-- A log token (a Go `interface` value) as the ordered-map model sees
it: a string, a byte slice, an untyped nil, or any other Go value
carried together with its fmt "%v" rendering (`S()` falls back to
`fmt.Sprintf` for those). -/
inductive Tok where
  | tStr (s : List Nat)
  | tBytes (s : List Nat)
  | tNull
  | tOther (goRepr : List Nat)
deriving DecidableEq

/-- `S()`: strings and byte slices pass through unchanged; anything
else is rendered by `fmt.Sprintf("%v", arg)` — an untyped nil prints
the five characters of "<nil>", and other values carry their own
rendering. -/
def S : Tok → List Nat
  | .tStr s => s
  | .tBytes s => s
  | .tNull => [0x3C, 0x6E, 0x69, 0x6C, 0x3E]
  | .tOther r => r

/-- `KVPairs` (data.go): parallel key and value slices. -/
structure KVPairs where
  keys : List (List Nat)
  vals : List Tok
deriving DecidableEq

/-- One update step shared by AddPairs and Merge: if the key is present
(the source's `idx` map holds the key's position) its value is
overwritten in place in the value slice, else both slices grow by the
new pair. -/
def upsert (m : KVPairs) (k : List Nat) (v : Tok) : KVPairs :=
  match m.keys.findIdx? (· == k) with
  | some j => ⟨m.keys, m.vals.set j v⟩
  | none => ⟨m.keys ++ [k], m.vals ++ [v]⟩

/-- AddPairs token chunking: `key := pairs[2*i]`, `val := pairs[2*i+1]`
and a final token with no partner gets the untyped nil value. -/
def chunkPairs : List Tok → List (Tok × Tok)
  | [] => []
  | [k] => [(k, Tok.tNull)]
  | k :: v :: rest => (k, v) :: chunkPairs rest

/-- `(AMap).AddPairs`.  An AMap is a `*KVPairs`, so the receiver is an
Option; with no tokens the receiver itself is returned (`return p`).
Otherwise the source allocates worst-case arrays, copies the receiver,
folds each key/value token pair through overwrite-or-append (the `idx`
map lookup) and truncates to the used length — the fold below. -/
def addPairsGo (p : Option KVPairs) (pairs : List Tok) : Option KVPairs :=
  if pairs.length = 0 then p
  else
    some ((chunkPairs pairs).foldl (fun m kv => upsert m (S kv.1) kv.2)
      (match p with | none => ⟨[], []⟩ | some q => q))

/-- The result of `(AMap).Merge`, remembering which pointer the Go
function returns: the receiver `a` itself, the argument `b` itself, or
a freshly allocated `&KVPairs`. -/
inductive MergeRes where
  | useA
  | useB
  | fresh (m : KVPairs)
deriving DecidableEq

/-- `(AMap).Merge`: `m` (the receiver's length, zero when nil) being
zero returns `b` itself; otherwise `n` (the argument's length, zero
when nil) being zero returns `a` itself; otherwise a fresh map is
allocated with the receiver's pairs folded together with the
argument's by overwrite-or-append. -/
def mergeGo (a b : Option KVPairs) : MergeRes :=
  match a with
  | none => .useB
  | some x =>
    if x.keys.length = 0 then .useB
    else
      match b with
      | none => .useA
      | some y =>
        if y.keys.length = 0 then .useA
        else .fresh ((y.keys.zip y.vals).foldl
          (fun m2 kv => upsert m2 kv.1 kv.2) x)

/-- The value bound to a key: the value slice entry at the key's first
index. -/
def lookupKV (m : KVPairs) (k : List Nat) : Option Tok :=
  match m.keys.findIdx? (· == k) with
  | some j => m.vals[j]?
  | none => none

/-- Specification side: the value of the last entry with the given
key. -/
def lastEntry (es : List ((List Nat) × Tok)) (k : List Nat) : Option Tok :=
  ((es.filter (fun e => e.1 == k)).getLast?).map (fun e => e.2)

/-- Specification side: keep only the first occurrence of each
element, preserving order. -/
def dedupFirst : List (List Nat) → List (List Nat)
  | [] => []
  | k :: rest => k :: (dedupFirst rest).filter (fun x => x != k)

theorem findIdx?_found (l : List (List Nat)) (k : List Nat) (j : Nat)
    (h : l.findIdx? (· == k) = some j) : j < l.length ∧ l[j]? = some k := by
  rw [List.findIdx?_eq_some_iff_findIdx_eq] at h
  obtain ⟨hlt, hfi⟩ := h
  refine ⟨hlt, ?_⟩
  have hp : (l[j] == k) = true := by
    subst hfi
    exact @List.findIdx_getElem _ (fun x => x == k) l hlt
  rw [List.getElem?_eq_getElem hlt, eq_of_beq hp]

theorem findIdx?_none_iff_not_mem (l : List (List Nat)) (k : List Nat) :
    l.findIdx? (· == k) = none ↔ k ∉ l := by
  rw [List.findIdx?_eq_none_iff]
  constructor
  · intro h hk
    have h2 := h k hk
    simp at h2
  · intro h x hx
    by_contra hb
    rw [Bool.not_eq_false] at hb
    exact h (by rwa [eq_of_beq hb] at hx)

theorem lookupKV_upsert_self (m : KVPairs) (k : List Nat) (v : Tok)
    (hlen : m.vals.length = m.keys.length) :
    lookupKV (upsert m k v) k = some v := by
  unfold upsert
  cases hf : m.keys.findIdx? (· == k) with
  | some j =>
    have hj := findIdx?_found _ _ _ hf
    unfold lookupKV
    dsimp only
    rw [hf]
    exact List.getElem?_set_eq (by omega)
  | none =>
    unfold lookupKV
    dsimp only
    have h1 : List.findIdx? (· == k) [k] = some 0 := by
      rw [List.findIdx?_cons]
      simp
    rw [List.findIdx?_append, hf, h1]
    show (m.vals ++ [v])[0 + m.keys.length]? = some v
    rw [Nat.zero_add, List.getElem?_append, if_neg (by omega)]
    simp [hlen]

theorem lookupKV_upsert_other (m : KVPairs) (k k2 : List Nat) (v : Tok)
    (hlen : m.vals.length = m.keys.length) (hne : k2 ≠ k) :
    lookupKV (upsert m k v) k2 = lookupKV m k2 := by
  unfold upsert
  cases hf : m.keys.findIdx? (· == k) with
  | some j =>
    unfold lookupKV
    dsimp only
    cases hf2 : m.keys.findIdx? (· == k2) with
    | some j2 =>
      have hj := findIdx?_found _ _ _ hf
      have hj2 := findIdx?_found _ _ _ hf2
      have hjj : j ≠ j2 := by
        intro he
        subst he
        rw [hj.2] at hj2
        injection hj2.2 with hx
        exact hne hx.symm
      show (m.vals.set j v)[j2]? = m.vals[j2]?
      rw [List.getElem?_set_ne hjj]
    | none => rfl
  | none =>
    unfold lookupKV
    dsimp only
    have h1 : List.findIdx? (· == k2) [k] = none := by
      rw [List.findIdx?_cons]
      rw [if_neg (fun hb => hne (eq_of_beq hb).symm)]
      rfl
    cases hf2 : m.keys.findIdx? (· == k2) with
    | some j2 =>
      have hj2 := findIdx?_found _ _ _ hf2
      rw [List.findIdx?_append, hf2, h1]
      show (m.vals ++ [v])[j2]? = m.vals[j2]?
      rw [List.getElem?_append, if_pos (by omega)]
    | none =>
      rw [List.findIdx?_append, hf2, h1]
      rfl

theorem dedupFirst_filter_comm (q : List Nat → Bool)
    (l : List (List Nat)) :
    dedupFirst (l.filter q) = (dedupFirst l).filter q := by
  induction l with
  | nil => rfl
  | cons k rest ih =>
    rw [List.filter_cons]
    by_cases hq : q k
    · rw [if_pos hq, dedupFirst, dedupFirst, ih, List.filter_cons, if_pos hq]
      congr 1
      rw [List.filter_filter, List.filter_filter]
      exact List.filter_congr (fun a ha => Bool.and_comm _ _)
    · rw [if_neg hq, dedupFirst, ih, List.filter_cons, if_neg hq]
      rw [List.filter_filter]
      refine (List.filter_congr (fun a ha => ?_)).symm
      by_cases hak : a = k
      · subst hak
        simp [Bool.not_eq_true] at hq
        simp [hq]
      · simp [bne_iff_ne, hak]

theorem mem_dedupFirst (l : List (List Nat)) (x : List Nat)
    (h : x ∈ dedupFirst l) : x ∈ l := by
  induction l with
  | nil => simpa [dedupFirst] using h
  | cons k rest ih =>
    rw [dedupFirst] at h
    rcases h with h | h
    · simp
    · rename_i h2
      have h3 := List.mem_filter.mp h2
      exact List.mem_cons_of_mem _ (ih h3.1)

theorem dedupFirst_nodup (l : List (List Nat)) : (dedupFirst l).Nodup := by
  induction l with
  | nil => exact List.nodup_nil
  | cons k rest ih =>
    rw [dedupFirst]
    refine List.Nodup.cons ?_ (List.Nodup.filter _ ih)
    intro hmem
    have h2 := List.mem_filter.mp hmem
    rw [bne_iff_ne] at h2
    exact h2.2 rfl

theorem lastEntry_cons (k0 : List Nat) (v0 : Tok)
    (es : List ((List Nat) × Tok)) (k : List Nat) :
    lastEntry ((k0, v0) :: es) k =
      if k0 == k then (lastEntry es k).or (some v0) else lastEntry es k := by
  unfold lastEntry
  rw [List.filter_cons]
  by_cases hb : (k0 == k) = true
  · rw [if_pos (by simpa using hb), if_pos hb]
    rw [List.getLast?_cons]
    cases hg : (List.filter (fun e => e.1 == k) es).getLast? with
    | none => simp [hg, Option.or]
    | some w => simp [hg, Option.or]
  · rw [if_neg (by simpa using hb), if_neg hb]

theorem fold_step_lookup (m : KVPairs) (k0 : List Nat) (v0 : Tok)
    (es : List ((List Nat) × Tok)) (hlen : m.vals.length = m.keys.length)
    (k : List Nat) :
    (lastEntry es k).or (lookupKV (upsert m k0 v0) k) =
      (lastEntry ((k0, v0) :: es) k).or (lookupKV m k) := by
  rw [lastEntry_cons]
  by_cases hb : (k0 == k) = true
  · rw [if_pos hb]
    have hk : k = k0 := (eq_of_beq hb).symm
    subst hk
    rw [lookupKV_upsert_self _ _ _ hlen]
    cases lastEntry es k <;> simp [Option.or]
  · rw [if_neg hb]
    have hne : k ≠ k0 := by
      intro he
      subst he
      simp at hb
    rw [lookupKV_upsert_other _ _ _ _ hlen hne]

theorem foldl_upsert_spec (es : List ((List Nat) × Tok)) :
    ∀ m : KVPairs, m.keys.Nodup → m.vals.length = m.keys.length →
    ((es.foldl (fun m2 kv => upsert m2 kv.1 kv.2) m).keys =
      m.keys ++ dedupFirst ((es.map Prod.fst).filter
        (fun k => !(m.keys.contains k)))) ∧
    (es.foldl (fun m2 kv => upsert m2 kv.1 kv.2) m).keys.Nodup ∧
    ((es.foldl (fun m2 kv => upsert m2 kv.1 kv.2) m).vals.length =
      (es.foldl (fun m2 kv => upsert m2 kv.1 kv.2) m).keys.length) ∧
    (∀ k, lookupKV (es.foldl (fun m2 kv => upsert m2 kv.1 kv.2) m) k =
      (lastEntry es k).or (lookupKV m k)) := by
  induction es with
  | nil =>
    intro m hnd hlen
    refine ⟨by simp [dedupFirst], hnd, hlen, fun k => ?_⟩
    simp [lastEntry, Option.or]
  | cons e es2 ih =>
    intro m hnd hlen
    obtain ⟨k0, v0⟩ := e
    rw [List.foldl_cons]
    cases hf : m.keys.findIdx? (· == k0) with
    | some j =>
      have hup : upsert m k0 v0 = ⟨m.keys, m.vals.set j v0⟩ := by
        unfold upsert
        rw [hf]
      have hnd2 : (upsert m k0 v0).keys.Nodup := by
        rw [hup]
        exact hnd
      have hlen2 : (upsert m k0 v0).vals.length =
          (upsert m k0 v0).keys.length := by
        rw [hup]
        simpa using hlen
      have IH := ih (upsert m k0 v0) hnd2 hlen2
      have hk0mem : k0 ∈ m.keys := by
        have hj := findIdx?_found _ _ _ hf
        have h2 := hj.2
        rw [List.getElem?_eq_getElem hj.1] at h2
        injection h2 with h3
        rw [← h3]
        exact List.getElem_mem hj.1
      refine ⟨?_, IH.2.1, IH.2.2.1, ?_⟩
      · rw [IH.1, hup]
        congr 1
        rw [List.map_cons, List.filter_cons, if_neg (by simp [hk0mem])]
      · intro k
        rw [IH.2.2.2 k]
        exact fold_step_lookup m k0 v0 es2 hlen k
    | none =>
      have hup : upsert m k0 v0 = ⟨m.keys ++ [k0], m.vals ++ [v0]⟩ := by
        unfold upsert
        rw [hf]
      have hk0nmem : k0 ∉ m.keys := (findIdx?_none_iff_not_mem _ _).mp hf
      have hnd2 : (upsert m k0 v0).keys.Nodup := by
        rw [hup]
        rw [List.nodup_append]
        refine ⟨hnd, List.nodup_singleton _, ?_⟩
        intro a ha hb
        simp at hb
        subst hb
        exact hk0nmem ha
      have hlen2 : (upsert m k0 v0).vals.length =
          (upsert m k0 v0).keys.length := by
        rw [hup]
        simp [hlen]
      have IH := ih (upsert m k0 v0) hnd2 hlen2
      refine ⟨?_, IH.2.1, IH.2.2.1, ?_⟩
      · rw [IH.1, hup]
        rw [List.append_assoc]
        congr 1
        rw [List.map_cons, List.filter_cons, if_pos (by simp [hk0nmem])]
        rw [dedupFirst, List.singleton_append]
        congr 1
        rw [← dedupFirst_filter_comm]
        congr 1
        rw [List.filter_filter]
        refine List.filter_congr (fun a ha => ?_)
        by_cases hak : a = k0
        · subst hak
          simp
        · simp [hak, List.contains_eq_any_beq]
      · intro k
        rw [IH.2.2.2 k]
        exact fold_step_lookup m k0 v0 es2 hlen k

theorem dedupFirst_of_nodup (l : List (List Nat)) (h : l.Nodup) :
    dedupFirst l = l := by
  induction l with
  | nil => rfl
  | cons k rest ih =>
    rw [dedupFirst, ih h.of_cons]
    congr 1
    rw [List.filter_eq_self]
    intro a ha
    rw [bne_iff_ne]
    intro he
    subst he
    exact (List.nodup_cons.mp h).1 ha

theorem lastEntry_zip_eq_lookup (k : List Nat) :
    ∀ (keys : List (List Nat)) (vals : List Tok), keys.Nodup →
    vals.length = keys.length →
    lastEntry (keys.zip vals) k =
      (match keys.findIdx? (· == k) with
        | some j => vals[j]?
        | none => none) := by
  intro keys
  induction keys with
  | nil =>
    intro vals hnd hlen
    simp [lastEntry, List.findIdx?_nil]
  | cons k0 ks ih =>
    intro vals hnd hlen
    cases vals with
    | nil => simp at hlen
    | cons v0 vs =>
      rw [List.zip_cons_cons, lastEntry_cons]
      rw [List.findIdx?_cons]
      by_cases hb : (k0 == k) = true
      · rw [if_pos hb, if_pos hb]
        have hknotin : ks.findIdx? (· == k) = none := by
          rw [findIdx?_none_iff_not_mem]
          rw [← eq_of_beq hb]
          exact (List.nodup_cons.mp hnd).1
        rw [ih vs (List.nodup_cons.mp hnd).2 (by simpa using hlen), hknotin]
        simp [Option.or]
      · rw [if_neg hb, if_neg hb]
        rw [ih vs (List.nodup_cons.mp hnd).2 (by simpa using hlen)]
        rw [List.findIdx?_succ]
        cases ks.findIdx? (· == k) with
        | some j => simp
        | none => rfl

/-- C4 counterexample.  Take the receiver `a = &KVPairs(empty1)` and the
argument `emptyMap = &KVPairs(empty2)`, two distinct empty instances:
Merge returns the ARGUMENT instance (useB), not the receiver, so
`a.Merge(emptyMap) == a` fails by pointer identity even though both are
empty and equal as values. -/
theorem c4_counterexample :
    mergeGo (some ⟨[], []⟩) (some ⟨[], []⟩) = MergeRes.useB ∧
    MergeRes.useB ≠ MergeRes.useA :=
  ⟨rfl, by decide⟩

/-- C4 amended.  `a.Merge(b)` returns the receiver `a` itself exactly
when `a` is nonempty and `b` is empty (nil pointer or zero keys); it
returns the argument `b` itself whenever `a` is empty (so
`emptyMap.Merge(b) == b` holds, but `a.Merge(emptyMap) == a` only holds
for nonempty `a` — for empty `a` the result is the `emptyMap` instance);
when both sides are nonempty a fresh map is allocated whose keys are
`a`'s keys followed by `b`'s new keys in order (no duplicates) and whose
value for each key is `b`'s when `b` binds it, else `a`'s.  The fold
never mutates `a.keys`, `a.vals`, `b.keys`, or `b.vals` — the fresh
result is built from copies. -/
theorem c4_merge_identity_and_content (a b : KVPairs)
    (hka : a.keys.Nodup) (hla : a.vals.length = a.keys.length)
    (hkb : b.keys.Nodup) (hlb : b.vals.length = b.keys.length) :
    (a.keys ≠ [] → mergeGo (some a) (some ⟨[], []⟩) = MergeRes.useA ∧
      mergeGo (some a) none = MergeRes.useA) ∧
    (mergeGo (some ⟨[], []⟩) (some b) = MergeRes.useB ∧
      mergeGo none (some b) = MergeRes.useB) ∧
    (a.keys ≠ [] → b.keys ≠ [] →
      ∃ r, mergeGo (some a) (some b) = MergeRes.fresh r ∧
        r.keys = a.keys ++ b.keys.filter (fun k => !(a.keys.contains k)) ∧
        r.keys.Nodup ∧
        r.vals.length = r.keys.length ∧
        (∀ k, lookupKV r k = (lookupKV b k).or (lookupKV a k))) := by
  refine ⟨?_, ⟨rfl, rfl⟩, ?_⟩
  · intro hne
    constructor
    · unfold mergeGo
      dsimp only
      rw [if_neg (by simpa using hne)]
      rfl
    · unfold mergeGo
      dsimp only
      rw [if_neg (by simpa using hne)]
  · intro hnea hneb
    have hspec := foldl_upsert_spec (b.keys.zip b.vals) a hka hla
    refine ⟨(b.keys.zip b.vals).foldl (fun m2 kv => upsert m2 kv.1 kv.2) a,
      ?_, ?_, hspec.2.1, hspec.2.2.1, ?_⟩
    · unfold mergeGo
      dsimp only
      rw [if_neg (by simpa using hnea), if_neg (by simpa using hneb)]
    · rw [hspec.1]
      congr 1
      rw [List.map_fst_zip _ _ (by omega)]
      rw [dedupFirst_filter_comm, dedupFirst_of_nodup _ hkb]
    · intro k
      rw [hspec.2.2.2 k]
      rw [lastEntry_zip_eq_lookup k b.keys b.vals hkb hlb]
      rfl

/-- Witness for the amended C4 at concrete nonempty maps. -/
theorem c4_merge_identity_and_content_witness :
    mergeGo (some ⟨[[0x61]], [Tok.tNull]⟩) (some ⟨[], []⟩) =
      MergeRes.useA ∧
    mergeGo (some ⟨[], []⟩) (some ⟨[[0x62]], [Tok.tNull]⟩) =
      MergeRes.useB ∧
    ∃ r, mergeGo (some ⟨[[0x61]], [Tok.tNull]⟩)
        (some ⟨[[0x62]], [Tok.tNull]⟩) = MergeRes.fresh r ∧
      r.keys = [[0x61]] ++
        List.filter (fun k => !(List.contains [[0x61]] k)) [[0x62]] ∧
      r.keys.Nodup ∧ r.vals.length = r.keys.length ∧
      (∀ k, lookupKV r k =
        (lookupKV ⟨[[0x62]], [Tok.tNull]⟩ k).or
          (lookupKV ⟨[[0x61]], [Tok.tNull]⟩ k)) := by
  have h := c4_merge_identity_and_content ⟨[[0x61]], [Tok.tNull]⟩
    ⟨[[0x62]], [Tok.tNull]⟩ (by decide) (by decide) (by decide) (by decide)
  exact ⟨(h.1 (by decide)).1, h.2.1.1, h.2.2 (by decide) (by decide)⟩

theorem chunkPairs_snoc (ps : List Tok) (t : Tok) (h : ps.length % 2 = 0) :
    chunkPairs (ps ++ [t]) = chunkPairs ps ++ [(t, Tok.tNull)] := by
  induction ps using chunkPairs.induct with
  | case1 => rfl
  | case2 k => simp at h
  | case3 k v rest ih =>
    rw [List.cons_append, List.cons_append, chunkPairs, chunkPairs]
    rw [ih (by simp at h; omega)]
    rfl

/-- C5.  For every receiver (with the no-duplicate-keys invariant) and
every nonempty flat token list, AddPairs returns a map with exactly one
entry per distinct stringified key; an existing receiver key keeps its
original position, new keys follow in first-occurrence order; the value
bound to a key is the last value supplied for it (falling back to the
receiver's value); and an odd trailing token forms a chunk bound to
the null value. -/
theorem c5_addpairs (p : KVPairs) (pairs : List Tok)
    (hnd : p.keys.Nodup) (hlen : p.vals.length = p.keys.length)
    (hne : pairs ≠ []) :
    ∃ r, addPairsGo (some p) pairs = some r ∧
      r.keys.Nodup ∧
      r.keys = p.keys ++ dedupFirst (((chunkPairs pairs).map
        (fun kv => S kv.1)).filter (fun k => !(p.keys.contains k))) ∧
      r.vals.length = r.keys.length ∧
      (∀ k, lookupKV r k =
        (lastEntry ((chunkPairs pairs).map (fun kv => (S kv.1, kv.2))) k).or
          (lookupKV p k)) ∧
      (∀ ps t, pairs = ps ++ [t] → ps.length % 2 = 0 →
        chunkPairs pairs = chunkPairs ps ++ [(t, Tok.tNull)]) := by
  have hfold : (chunkPairs pairs).foldl
      (fun m kv => upsert m (S kv.1) kv.2) p =
      ((chunkPairs pairs).map (fun kv => (S kv.1, kv.2))).foldl
        (fun m kv => upsert m kv.1 kv.2) p := by
    rw [List.foldl_map]
  have hspec := foldl_upsert_spec
    ((chunkPairs pairs).map (fun kv => (S kv.1, kv.2))) p hnd hlen
  refine ⟨(chunkPairs pairs).foldl (fun m kv => upsert m (S kv.1) kv.2) p,
    ?_, ?_, ?_, ?_, ?_, ?_⟩
  · unfold addPairsGo
    rw [if_neg (by simpa using hne)]
  · rw [hfold]
    exact hspec.2.1
  · rw [hfold, hspec.1]
    congr 2
    rw [List.map_map]
    rfl
  · rw [hfold]
    exact hspec.2.2.1
  · intro k
    rw [hfold]
    exact hspec.2.2.2 k
  · intro ps t hps hpar
    subst hps
    exact chunkPairs_snoc ps t hpar

/-- Witness for C5: receiver holding key "a", tokens that overwrite
"a", add "b", and leave a trailing key "c" bound to null. -/
theorem c5_addpairs_witness :
    ∃ r, addPairsGo (some ⟨[[0x61]], [Tok.tNull]⟩)
        [Tok.tStr [0x61], Tok.tBytes [0x7A], Tok.tStr [0x62],
          Tok.tNull, Tok.tStr [0x63]] = some r ∧
      r.keys.Nodup ∧
      r.keys = [[0x61]] ++ dedupFirst (((chunkPairs
        [Tok.tStr [0x61], Tok.tBytes [0x7A], Tok.tStr [0x62],
          Tok.tNull, Tok.tStr [0x63]]).map
        (fun kv => S kv.1)).filter (fun k => !(List.contains [[0x61]] k))) ∧
      r.vals.length = r.keys.length ∧
      (∀ k, lookupKV r k =
        (lastEntry ((chunkPairs [Tok.tStr [0x61], Tok.tBytes [0x7A],
          Tok.tStr [0x62], Tok.tNull, Tok.tStr [0x63]]).map
            (fun kv => (S kv.1, kv.2))) k).or
          (lookupKV ⟨[[0x61]], [Tok.tNull]⟩ k)) ∧
      (∀ ps t, [Tok.tStr [0x61], Tok.tBytes [0x7A], Tok.tStr [0x62],
          Tok.tNull, Tok.tStr [0x63]] = ps ++ [t] → ps.length % 2 = 0 →
        chunkPairs [Tok.tStr [0x61], Tok.tBytes [0x7A], Tok.tStr [0x62],
          Tok.tNull, Tok.tStr [0x63]] = chunkPairs ps ++ [(t, Tok.tNull)]) :=
  c5_addpairs ⟨[[0x61]], [Tok.tNull]⟩
    [Tok.tStr [0x61], Tok.tBytes [0x7A], Tok.tStr [0x62], Tok.tNull,
      Tok.tStr [0x63]] (by decide) (by decide) (by decide)

/-! ## buf.go: the scalar/container encoder over a closed value
universe (C3, C9, C10) -/

/-- The encoder's value universe: the dynamic types distinguished by
the type switch in `(*buffer).scalar` and the sentinel checks in
`(*buffer).rawPairs`, restricted to the shapes these claims exercise
(the float, unsigned, Stringer, error, sorted-Go-map and deferred-func
branches are untouched by claims C3/C9/C10).  `vOther` stands for any
remaining Go value, carrying the bytes the fallback `json.Marshal`
branch appends and the value's fmt "%v" rendering (used if it lands in
key position). -/
inductive Val where
  | vNull
  | vStr (s : List Nat)
  | vBytes (s : List Nat)
  | vInt (n : Int)
  | vBool (b : Bool)
  | vList (l : List Val)
  | vRawMap (l : List Val)
  | vAMapNil
  | vAMap (keys : List (List Nat)) (vals : List Val)
  | vKVPairs (keys : List (List Nat)) (vals : List Val)
  | vSkip
  | vInline
  | vOther (jsonRepr : List Nat) (goRepr : List Nat)

/-- `strconv.AppendInt`: decimal with a leading minus when negative. -/
def intRepr (n : Int) : List Nat :=
  if n < 0 then 0x2D :: decRep n.natAbs else decRep n.toNat

/-- fmt-style space-separated join (Go prints slice elements separated
by single spaces). -/
def fmtStrSlice (l : List (List Nat)) : List Nat :=
  match l with
  | [] => [0x5B, 0x5D]
  | [x] => [0x5B] ++ x ++ [0x5D]
  | x :: rest =>
    [0x5B] ++ x ++ [0x20] ++ (fmtStrSlice rest).drop 1

mutual

/-- Model of `fmt.Sprintf` with the "%v" verb on an encoder value, as
used by the fallback of `S()`: nil prints the text of angle-nil,
numbers print in decimal, booleans as true/false, slices as
space-separated elements in square brackets, a `KVPairs` value as its
two slices in braces, an `AMap` pointer with a leading ampersand, and
the two sentinel string types print their (empty) string value. -/
def fmtV : Val → List Nat
  | .vNull => [0x3C, 0x6E, 0x69, 0x6C, 0x3E]
  | .vStr s => s
  | .vBytes s => fmtStrSlice (s.map decRep)
  | .vInt n => intRepr n
  | .vBool true => [0x74, 0x72, 0x75, 0x65]
  | .vBool false => [0x66, 0x61, 0x6C, 0x73, 0x65]
  | .vList l => [0x5B] ++ fmtVList l ++ [0x5D]
  | .vRawMap l => [0x5B] ++ fmtVList l ++ [0x5D]
  | .vAMapNil => [0x3C, 0x6E, 0x69, 0x6C, 0x3E]
  | .vAMap ks vs =>
    [0x26, 0x7B] ++ fmtStrSlice ks ++ [0x20, 0x5B] ++ fmtVList vs ++
      [0x5D, 0x7D]
  | .vKVPairs ks vs =>
    [0x7B] ++ fmtStrSlice ks ++ [0x20, 0x5B] ++ fmtVList vs ++ [0x5D, 0x7D]
  | .vSkip => []
  | .vInline => []
  | .vOther _ go => go

def fmtVList : List Val → List Nat
  | [] => []
  | [x] => fmtV x
  | x :: rest => fmtV x ++ [0x20] ++ fmtVList rest

end

/-- `S()` over encoder values: strings and byte slices pass through,
everything else falls back to the fmt "%v" rendering. -/
def Sval : Val → List Nat
  | .vStr s => s
  | .vBytes s => s
  | v => fmtV v

/-- The bytes of the `comma` constant ", ". -/
def commaB : List Nat := [0x2C, 0x20]

/-- The bytes of the literal key "cannot-inline". -/
def cannotInline : List Nat :=
  [0x63, 0x61, 0x6E, 0x6E, 0x6F, 0x74, 0x2D, 0x69, 0x6E, 0x6C, 0x69,
    0x6E, 0x65]

mutual

/-- `(*buffer).scalar` in the current source: write the pending
delimiter, reset it, dispatch on the dynamic type, and leave the comma
delimiter pending.  Each equation returns (bytes appended, new pending
delimiter).  Note there is no empty-map special case: a nil or empty
AMap opens and closes a brace pair like any other AMap. -/
def scalarGo (dl : List Nat) (v : Val) : List Nat × List Nat :=
  match v with
  | .vNull => (dl ++ [0x6E, 0x75, 0x6C, 0x6C], commaB)
  | .vStr s => (dl ++ [0x22] ++ escape s ++ [0x22], commaB)
  | .vBytes s => (dl ++ [0x22] ++ escapeBytes s ++ [0x22], commaB)
  | .vInt n => (dl ++ intRepr n, commaB)
  | .vBool true => (dl ++ [0x74, 0x72, 0x75, 0x65], commaB)
  | .vBool false => (dl ++ [0x66, 0x61, 0x6C, 0x73, 0x65], commaB)
  | .vList l =>
    let o := inlineListGo [] l
    (dl ++ [0x5B] ++ o.1 ++ [0x5D], commaB)
  | .vRawMap l =>
    let o := rawPairsGo [] l
    (dl ++ [0x7B] ++ o.1 ++ [0x7D], commaB)
  | .vAMapNil => (dl ++ [0x7B, 0x7D], commaB)
  | .vAMap ks vs =>
    let o := pairsGo [] ks vs
    (dl ++ [0x7B] ++ o.1 ++ [0x7D], commaB)
  | .vKVPairs _ _ => (dl ++ [0x7B, 0x7D], commaB)
  | .vSkip => (dl ++ [0x22, 0x22], commaB)
  | .vInline => (dl ++ [0x22, 0x22], commaB)
  | .vOther j _ => (dl ++ j, commaB)
termination_by 2 * sizeOf v

/-- `(*buffer).inlineList`: scalar() on each element in order,
threading the pending delimiter. -/
def inlineListGo (dl : List Nat) (l : List Val) : List Nat × List Nat :=
  match l with
  | [] => ([], dl)
  | v :: rest =>
    let o1 := scalarGo dl v
    let o2 := inlineListGo o1.2 rest
    (o1.1 ++ o2.1, o2.2)
termination_by 2 * sizeOf l

/-- `(*buffer).pair`: quote(k) (pending delimiter, quoted escaped key,
comma pending), colon (clears the delimiter), scalar(v) (with the
cleared delimiter). -/
def pairGo (dl : List Nat) (k : List Nat) (v : Val) : List Nat × List Nat :=
  let o := scalarGo [] v
  (dl ++ [0x22] ++ escape k ++ [0x22] ++ [0x3A] ++ o.1, o.2)
termination_by 2 * sizeOf v + 1

/-- `(*buffer).pairs`: one pair per key (a nil AMap contributes
nothing; the package maintains equal slice lengths). -/
def pairsGo (dl : List Nat) (ks : List (List Nat)) (vs : List Val) :
    List Nat × List Nat :=
  match ks, vs with
  | k :: ks2, v :: vs2 =>
    let o1 := pairGo dl k v
    let o2 := pairsGo o1.2 ks2 vs2
    (o1.1 ++ o2.1, o2.2)
  | _, _ => ([], dl)
termination_by 2 * sizeOf vs

/-- `(*buffer).rawPairs`, with the index-parity loop rendered as
two-token chunks: an even-position skip sentinel drops the following
value; an even-position inline sentinel splices a map-shaped following
value (anything else becomes a "cannot-inline" pair); otherwise the
token is quoted via S() as a key and the following value is encoded.
After the loop, an odd length without a pending skip appends
scalar(nil). -/
def rawPairsGo (dl : List Nat) (m : List Val) : List Nat × List Nat :=
  match m with
  | [] => ([], dl)
  | [k] =>
    match k with
    | .vSkip => ([], dl)
    | .vInline => scalarGo dl .vNull
    | _ => pairGo dl (Sval k) .vNull
  | k :: v :: rest =>
    match k with
    | .vSkip => rawPairsGo dl rest
    | .vInline =>
      let o1 := inlineArgGo dl v
      let o2 := rawPairsGo o1.2 rest
      (o1.1 ++ o2.1, o2.2)
    | _ =>
      let o1 := pairGo dl (Sval k) v
      let o2 := rawPairsGo o1.2 rest
      (o1.1 ++ o2.1, o2.2)
termination_by 2 * sizeOf m

/-- The inner switch of the `inlining` arm of `(*buffer).rawPairs`:
RawMap values are spliced by a recursive rawPairs call, KVPairs and
AMap values by pairs (a nil AMap splices nothing), and any other value
becomes an ordinary pair under the key "cannot-inline". -/
def inlineArgGo (dl : List Nat) (v : Val) : List Nat × List Nat :=
  match v with
  | .vRawMap l => rawPairsGo dl l
  | .vKVPairs ks vs => pairsGo dl ks vs
  | .vAMapNil => ([], dl)
  | .vAMap ks vs => pairsGo dl ks vs
  | w => pairGo dl cannotInline w
termination_by 2 * sizeOf v + 2
decreasing_by all_goals (simp_wf; try omega)

end

theorem escape_noEsc (l : List Nat) (h : ∀ c ∈ l, noEsc c = true) :
    escape l = l := by
  induction l with
  | nil => rw [escape]
  | cons c rest ih =>
    rw [escape, if_pos (h c (by simp))]
    rw [ih (fun x hx => h x (by simp [hx]))]

theorem rawPairsGo_nil (dl : List Nat) : rawPairsGo dl [] = ([], dl) := by
  rw [rawPairsGo]

theorem rawPairsGo_cons_skip (dl : List Nat) (v : Val) (x : List Val) :
    rawPairsGo dl (Val.vSkip :: v :: x) = rawPairsGo dl x := by
  rw [rawPairsGo]

theorem rawPairsGo_cons_inline (dl : List Nat) (v : Val) (x : List Val) :
    rawPairsGo dl (Val.vInline :: v :: x) =
      ((inlineArgGo dl v).1 ++ (rawPairsGo (inlineArgGo dl v).2 x).1,
        (rawPairsGo (inlineArgGo dl v).2 x).2) := by
  rw [rawPairsGo]

theorem rawPairsGo_cons_default (dl : List Nat) (k v : Val) (x : List Val)
    (h1 : k ≠ Val.vSkip) (h2 : k ≠ Val.vInline) :
    rawPairsGo dl (k :: v :: x) =
      ((pairGo dl (Sval k) v).1 ++ (rawPairsGo (pairGo dl (Sval k) v).2 x).1,
        (rawPairsGo (pairGo dl (Sval k) v).2 x).2) := by
  cases k
  case vSkip => exact absurd rfl h1
  case vInline => exact absurd rfl h2
  all_goals rw [rawPairsGo] <;> simp

theorem rawPairsGo_single_skip (dl : List Nat) :
    rawPairsGo dl [Val.vSkip] = ([], dl) := by
  rw [rawPairsGo]

theorem rawPairsGo_single_inline (dl : List Nat) :
    rawPairsGo dl [Val.vInline] =
      (dl ++ [0x6E, 0x75, 0x6C, 0x6C], commaB) := by
  rw [rawPairsGo, scalarGo]

theorem rawPairsGo_single_default (dl : List Nat) (k : Val)
    (h1 : k ≠ Val.vSkip) (h2 : k ≠ Val.vInline) :
    rawPairsGo dl [k] = pairGo dl (Sval k) Val.vNull := by
  cases k
  case vSkip => exact absurd rfl h1
  case vInline => exact absurd rfl h2
  all_goals rw [rawPairsGo] <;> simp

/-- Flat alternating key/value tokens, as if an AMap's pairs had been
passed directly at the parent level. -/
def interleave : List (List Nat) → List Val → List Val
  | k :: ks, v :: vs => Val.vStr k :: v :: interleave ks vs
  | _, _ => []

/-- Processing an even-length prefix composes: its chunks never leave a
pending skip or inline flag, so serialization of the remaining tokens
continues independently, threading only the pending delimiter. -/
theorem rawPairsGo_append_even :
    ∀ (l : List Val), l.length % 2 = 0 → ∀ (dl : List Nat) (t : List Val),
    rawPairsGo dl (l ++ t) =
      ((rawPairsGo dl l).1 ++ (rawPairsGo (rawPairsGo dl l).2 t).1,
        (rawPairsGo (rawPairsGo dl l).2 t).2)
  | [], _, dl, t => by
    rw [rawPairsGo_nil]
    simp
  | [k], h, dl, t => by simp at h
  | k :: v :: rest, h, dl, t => by
    have hr : rest.length % 2 = 0 := by simp at h; omega
    have ih := rawPairsGo_append_even rest hr
    by_cases hk1 : k = Val.vSkip
    · subst hk1
      rw [List.cons_append, List.cons_append, rawPairsGo_cons_skip,
        rawPairsGo_cons_skip]
      exact ih dl t
    · by_cases hk2 : k = Val.vInline
      · subst hk2
        rw [List.cons_append, List.cons_append, rawPairsGo_cons_inline,
          rawPairsGo_cons_inline, ih (inlineArgGo dl v).2 t]
        simp
      · rw [List.cons_append, List.cons_append,
          rawPairsGo_cons_default dl k v (rest ++ t) hk1 hk2,
          rawPairsGo_cons_default dl k v rest hk1 hk2,
          ih (pairGo dl (Sval k) v).2 t]
        simp

/-- The tokens obtained by flattening an AMap's key/value pairs are
serialized by rawPairs exactly as pairs serializes the map itself
(values are never sentinel-checked in value position). -/
theorem rawPairsGo_interleave :
    ∀ (ks : List (List Nat)) (vs : List Val) (dl : List Nat),
    rawPairsGo dl (interleave ks vs) = pairsGo dl ks vs
  | [], vs, dl => by
    rw [interleave, rawPairsGo_nil, pairsGo] <;> simp
  | k :: ks2, [], dl => by
    rw [interleave, rawPairsGo_nil, pairsGo] <;> simp
  | k :: ks2, v :: vs2, dl => by
    rw [interleave,
      rawPairsGo_cons_default dl (Val.vStr k) v (interleave ks2 vs2)
        (by simp) (by simp),
      rawPairsGo_interleave ks2 vs2, pairsGo]
    simp [Sval]

theorem interleave_length_even (ks : List (List Nat)) (vs : List Val) :
    (interleave ks vs).length % 2 = 0 := by
  induction ks generalizing vs with
  | nil => rw [interleave] <;> simp
  | cons k ks2 ih =>
    cases vs with
    | nil => rw [interleave] <;> simp
    | cons v vs2 =>
      rw [interleave]
      have := ih vs2
      simp only [List.length_cons]
      omega

/-- The shapes accepted by the inner switch of the inlining arm of
rawPairs: RawMap, KVPairs and AMap (including a nil AMap). -/
def inlinable : Val → Bool
  | .vRawMap _ => true
  | .vKVPairs _ _ => true
  | .vAMapNil => true
  | .vAMap _ _ => true
  | _ => false

/-- C3: counterexample.  An AMap holding zero pairs, encoded as a
nested value by scalar with no pending delimiter, appends the
two-character object braces, and so does a nil AMap; the claimed
output (nothing at all) differs. -/
theorem c3_counterexample :
    (scalarGo [] (Val.vAMap [] [])).1 = [0x7B, 0x7D] ∧
    (scalarGo [] Val.vAMapNil).1 = [0x7B, 0x7D] ∧
    ([0x7B, 0x7D] : List Nat) ≠ ([] : List Nat) := by
  refine ⟨?_, ?_, by simp⟩
  · rw [scalarGo]
    simp [pairsGo]
  · rw [scalarGo]
    simp

/-- C3 (amended): for every pending delimiter, scalar on an empty AMap
(nil pointer or zero pairs) writes the delimiter followed by exactly
the two-character object braces and leaves the comma delimiter
pending; the empty map is not skipped. -/
theorem c3_empty_amap_braces (dl : List Nat) :
    scalarGo dl (Val.vAMap [] []) = (dl ++ [0x7B, 0x7D], commaB) ∧
    scalarGo dl Val.vAMapNil = (dl ++ [0x7B, 0x7D], commaB) := by
  constructor
  · rw [scalarGo]
    simp [pairsGo]
  · rw [scalarGo]

/-- C9: counterexample.  In a RawMap an inline sentinel followed by a
list value does not splice the list's elements into the parent's
output: the pair "cannot-inline" : value is emitted instead (here the
empty list, whose splice would contribute nothing, yields a nonempty
key/value pair). -/
theorem c9_counterexample :
    (rawPairsGo [] [Val.vInline, Val.vList []]).1 =
      [0x22] ++ cannotInline ++ [0x22, 0x3A] ++ [0x5B, 0x5D] ∧
    (rawPairsGo [] [Val.vInline, Val.vList []]).1 ≠ [] := by
  have he : escape cannotInline = cannotInline := escape_noEsc _ (by decide)
  have h : (rawPairsGo [] [Val.vInline, Val.vList []]).1 =
      [0x22] ++ cannotInline ++ [0x22, 0x3A] ++ [0x5B, 0x5D] := by
    rw [rawPairsGo_cons_inline, rawPairsGo_nil]
    rw [show inlineArgGo [] (Val.vList []) =
      pairGo [] cannotInline (Val.vList []) from by rw [inlineArgGo] <;> simp]
    rw [pairGo]
    rw [show scalarGo [] (Val.vList []) =
      ([0x5B, 0x5D], commaB) from by rw [scalarGo] <;> simp [inlineListGo]]
    simp [he]
  exact ⟨h, by rw [h]; simp⟩

/-- C9 (amended): when a key-position token of a RawMap is the inline
sentinel, a following RawMap value has its tokens spliced into the
parent's output exactly as if they had appeared there (for the
well-formed even-length case), a following AMap or KVPairs value is
spliced as its flattened key/value pairs, a nil AMap splices nothing,
and any other value — lists included — is not spliced at all: it is
emitted as an ordinary pair under the literal key "cannot-inline". -/
theorem c9_inline_splice (dl : List Nat) (rest : List Val)
    (ks : List (List Nat)) (vs : List Val) (l : List Val) (v : Val)
    (hl : l.length % 2 = 0) :
    rawPairsGo dl (Val.vInline :: Val.vRawMap l :: rest) =
      rawPairsGo dl (l ++ rest) ∧
    rawPairsGo dl (Val.vInline :: Val.vAMap ks vs :: rest) =
      rawPairsGo dl (interleave ks vs ++ rest) ∧
    rawPairsGo dl (Val.vInline :: Val.vKVPairs ks vs :: rest) =
      rawPairsGo dl (interleave ks vs ++ rest) ∧
    rawPairsGo dl (Val.vInline :: Val.vAMapNil :: rest) =
      rawPairsGo dl rest ∧
    (inlinable v = false →
      rawPairsGo dl (Val.vInline :: v :: rest) =
        rawPairsGo dl (Val.vStr cannotInline :: v :: rest)) := by
  refine ⟨?_, ?_, ?_, ?_, ?_⟩
  · rw [rawPairsGo_cons_inline, rawPairsGo_append_even l hl dl rest]
    rw [show inlineArgGo dl (Val.vRawMap l) = rawPairsGo dl l from by
      rw [inlineArgGo]]
  · rw [rawPairsGo_cons_inline,
      rawPairsGo_append_even (interleave ks vs)
        (interleave_length_even ks vs) dl rest,
      rawPairsGo_interleave]
    rw [show inlineArgGo dl (Val.vAMap ks vs) = pairsGo dl ks vs from by
      rw [inlineArgGo]]
  · rw [rawPairsGo_cons_inline,
      rawPairsGo_append_even (interleave ks vs)
        (interleave_length_even ks vs) dl rest,
      rawPairsGo_interleave]
    rw [show inlineArgGo dl (Val.vKVPairs ks vs) = pairsGo dl ks vs from by
      rw [inlineArgGo]]
  · rw [rawPairsGo_cons_inline]
    rw [show inlineArgGo dl Val.vAMapNil = ([], dl) from by
      rw [inlineArgGo]]
    simp
  · intro hv
    rw [rawPairsGo_cons_inline,
      rawPairsGo_cons_default dl (Val.vStr cannotInline) v rest
        (by simp) (by simp)]
    rw [show inlineArgGo dl v = pairGo dl cannotInline v from by
      cases v <;> first
        | ((rw [inlineArgGo] <;> simp); done)
        | simp [inlinable] at hv]
    simp [Sval]

theorem c9_inline_splice_witness :
    ([] : List Val).length % 2 = 0 ∧
    inlinable Val.vNull = false ∧
    rawPairsGo [] [Val.vInline, Val.vRawMap []] =
      rawPairsGo [] (([] : List Val) ++ []) ∧
    rawPairsGo [] [Val.vInline, Val.vNull] =
      rawPairsGo [] [Val.vStr cannotInline, Val.vNull] := by
  have h := c9_inline_splice [] [] [] [] [] Val.vNull (by decide)
  exact ⟨by decide, by decide, h.1, h.2.2.2.2 (by decide)⟩

/-- C10: counterexample.  A RawMap whose odd trailing token is the
inline sentinel does not emit that token as a key with a null value:
the loop ends with the inlining flag pending and the closing fixup
appends a bare, keyless null. -/
theorem c10_counterexample :
    (rawPairsGo [] [Val.vInline]).1 = [0x6E, 0x75, 0x6C, 0x6C] ∧
    (rawPairsGo [] [Val.vInline]).1 ≠
      (pairGo [] (Sval Val.vInline) Val.vNull).1 := by
  have h := rawPairsGo_single_inline ([] : List Nat)
  refine ⟨by simp [h], ?_⟩
  rw [h, pairGo]
  rw [show scalarGo [] Val.vNull =
    ([0x6E, 0x75, 0x6C, 0x6C], commaB) from by rw [scalarGo]; simp]
  rw [show escape (Sval Val.vInline) = [] from by
    rw [show Sval Val.vInline = [] from rfl, escape]]
  simp

/-- C10 (amended): serializing a RawMap with an odd number of tokens
(an even-length body plus one trailing token) emits the body's pairs
and then: nothing when the trailing token is the skip sentinel; the
token quoted via S() as a key followed by the JSON value null when it
is any ordinary token; but when it is the inline sentinel, a bare
keyless null — not a key/value pair. -/
theorem c10_odd_trailing (dl : List Nat) (m : List Val) (k : Val)
    (hm : m.length % 2 = 0) :
    (k ≠ Val.vSkip → k ≠ Val.vInline →
      rawPairsGo dl (m ++ [k]) =
        ((rawPairsGo dl m).1 ++
          (pairGo (rawPairsGo dl m).2 (Sval k) Val.vNull).1,
          (pairGo (rawPairsGo dl m).2 (Sval k) Val.vNull).2)) ∧
    rawPairsGo dl (m ++ [Val.vSkip]) = rawPairsGo dl m ∧
    rawPairsGo dl (m ++ [Val.vInline]) =
      ((rawPairsGo dl m).1 ++ (rawPairsGo dl m).2 ++
        [0x6E, 0x75, 0x6C, 0x6C], commaB) := by
  refine ⟨?_, ?_, ?_⟩
  · intro h1 h2
    rw [rawPairsGo_append_even m hm dl [k],
      rawPairsGo_single_default (rawPairsGo dl m).2 k h1 h2]
  · rw [rawPairsGo_append_even m hm dl [Val.vSkip], rawPairsGo_single_skip]
    simp
  · rw [rawPairsGo_append_even m hm dl [Val.vInline],
      rawPairsGo_single_inline]
    simp

theorem c10_odd_trailing_witness :
    ([] : List Val).length % 2 = 0 ∧
    rawPairsGo [] (([] : List Val) ++ [Val.vNull]) =
      ((rawPairsGo [] ([] : List Val)).1 ++
        (pairGo (rawPairsGo [] ([] : List Val)).2 (Sval Val.vNull)
          Val.vNull).1,
        (pairGo (rawPairsGo [] ([] : List Val)).2 (Sval Val.vNull)
          Val.vNull).2) ∧
    rawPairsGo [] (([] : List Val) ++ [Val.vInline]) =
      ((rawPairsGo [] ([] : List Val)).1 ++
        (rawPairsGo [] ([] : List Val)).2 ++ [0x6E, 0x75, 0x6C, 0x6C],
        commaB) := by
  have h := c10_odd_trailing [] [] Val.vNull (by decide)
  exact ⟨by decide, h.1 (by simp) (by simp), h.2.2⟩

end Lager
